import Mathlib

/-!
# An LRU byte cache with expiry (package `cache`, file `cache.go`)

A shallow embedding of `memcache` and its three operations `Fetch`, `Set`
and `Delete`, followed by theorems about them.

Modelling choices.

* A `*list.Element` is a pointer; pointers are natural numbers and the field
  `elems` of the state maps each pointer to the `cachedItem` the element's
  `Value` points to.  The `container/list` is the list of its element
  pointers, front first; the Go map `items` is a finite map from keys to
  element pointers.
* `uint` is 64 bits wide: `currentBytes` is a natural number below `2 ^ 64`
  and `+=`, `-=` wrap around.
* `time.Time` is an integer instant and `time.Duration` an integer, `Add` is
  `+` and `Before` is `<`.  Every operation that reads the clock takes the
  value of `time.Now().UTC()` as the argument `now`.
* The eviction loop of `Set` is run with a fuel argument: `none` means that
  the loop did not finish within `fuel` iterations.
* The mutex is not modelled: every operation is one atomic state transition.
-/

namespace Cache

/-! ## Data model -/

/-- The errors of the package: `ErrNotFound` is the only one. -/
inductive Error where
  | ErrNotFound
deriving DecidableEq, Repr

/-- Default capacity in bytes, `uint(64 * 1024 * 1024)`. -/
def DefaultBytesLimit : Nat := 64 * 1024 * 1024

/-- Default capacity in items, `uint(64 * 1024 * 4)`. -/
def DefaultItemLimit : Nat := 64 * 1024 * 4

/-- Number of values of the Go type `uint`. -/
def uintSize : Nat := 2 ^ 64

/-- Addition `a + b` of two `uint`. -/
def uadd (a b : Nat) : Nat := (a + b) % uintSize

/-- Subtraction `a - b` of two `uint`. -/
def usub (a b : Nat) : Nat := (a + uintSize - b % uintSize) % uintSize

/-- The struct `cachedItem`. -/
structure cachedItem where
  key : String
  payload : List UInt8
  expireAt : Int
deriving DecidableEq, Repr

instance : Inhabited cachedItem := ⟨⟨"", [], 0⟩⟩

deriving instance DecidableEq for Except

/-- The struct `memcache` (without its mutex). -/
structure memcache where
  /-- the `cachedItem` behind each `*list.Element` -/
  elems : Nat → cachedItem
  /-- the recency list: element pointers, front first -/
  list : List Nat
  /-- the index: key to element pointer -/
  items : AList (fun _ : String => Nat)
  maxItems : Nat
  maxBytes : Nat
  currentBytes : Nat

/-- The type `cacheOption`, a function that mutates the cache. -/
abbrev cacheOption := memcache → memcache

/-- `MaxItemLimit(l)`. -/
def MaxItemLimit (l : Nat) : cacheOption := fun m => { m with maxItems := l }

/-- `MaxBytesLimit(b)`. -/
def MaxBytesLimit (b : Nat) : cacheOption := fun m => { m with maxBytes := b }

/-- `NewMemCache(opts...)`: the empty cache with the default limits, then every
option applied in order. -/
def NewMemCache (opts : List cacheOption) : memcache :=
  opts.foldl (fun m o => o m)
    { elems := fun _ => default
      list := []
      items := ∅
      maxBytes := DefaultBytesLimit
      maxItems := DefaultItemLimit
      currentBytes := 0 }

/-! ## The operations of `container/list` that the cache uses -/

/-- `l.Remove(e)`: unlink `e` when it is an element of `l`, else do nothing. -/
def Remove (l : List Nat) (e : Nat) : List Nat := l.erase e

/-- `l.MoveToFront(e)`: when `e` is an element of `l` move it to the front,
else do nothing. -/
def MoveToFront (l : List Nat) (e : Nat) : List Nat :=
  if e ∈ l then e :: l.erase e else l

/-- `l.Back()`: the last element, `none` for `nil`. -/
def Back (l : List Nat) : Option Nat := l.getLast?

/-- A pointer for a newly allocated element: one that neither the list nor the
index holds. -/
def fresh (m : memcache) : Nat :=
  (m.list ++ m.items.entries.map (fun s => s.2)).foldr max 0 + 1

/-- Assignment through a pointer. -/
def store (elems : Nat → cachedItem) (e : Nat) (v : cachedItem) : Nat → cachedItem :=
  fun q => if q = e then v else elems q

/-! ## Fetch, Set, Delete -/

/-- `Fetch(key)` at clock reading `now`: the new state and the result, where
`.error .ErrNotFound` stands for `(nil, ErrNotFound)` and `.ok p` for `(p, nil)`. -/
def Fetch (m : memcache) (key : String) (now : Int) : memcache × Except Error (List UInt8) :=
  match m.items.lookup key with
  | none => (m, .error .ErrNotFound)
  | some element =>
    let cachedItem := m.elems element
    if cachedItem.expireAt < now then
      ({ m with list := Remove m.list element, items := m.items.erase cachedItem.key },
        .error .ErrNotFound)
    else
      ({ m with list := MoveToFront m.list element }, .ok cachedItem.payload)

/-- The body of the eviction loop of `Set`: drop the back element from the index
and the list and subtract its payload length; nothing when the list is empty. -/
def evictStep (m : memcache) : memcache :=
  match Back m.list with
  | none => m
  | some e =>
    { m with
      items := m.items.erase (m.elems e).key
      list := Remove m.list e
      currentBytes := usub m.currentBytes (m.elems e).payload.length }

/-- The condition of the eviction loop of `Set`. -/
def overLimit (m : memcache) : Prop :=
  m.list.length > m.maxItems ∨ m.currentBytes > m.maxBytes

instance (m : memcache) : Decidable (overLimit m) := by
  unfold overLimit; infer_instance

/-- The eviction loop of `Set`, at most `fuel` evaluations of its condition. -/
def evictLoop : Nat → memcache → Option memcache
  | 0, _ => none
  | fuel + 1, m => if overLimit m then evictLoop fuel (evictStep m) else some m

/-- `Set(key, value, exp)` at clock reading `now`; the returned error is always
`nil` and is left out.  `none`: the eviction loop needs more than `fuel` rounds. -/
def Set (fuel : Nat) (m : memcache) (key : String) (value : List UInt8) (exp : Int)
    (now : Int) : Option memcache :=
  match m.items.lookup key with
  | some element =>
    let item := m.elems element
    let bytes := usub m.currentBytes item.payload.length
    let item := { item with payload := value, expireAt := now + exp }
    some { m with
      elems := store m.elems element item
      currentBytes := uadd bytes value.length
      list := MoveToFront m.list element }
  | none =>
    let element := fresh m
    evictLoop fuel
      { m with
        currentBytes := uadd m.currentBytes value.length
        elems := store m.elems element ⟨key, value, now + exp⟩
        list := element :: m.list
        items := m.items.insert key element }

/-- `Delete(key)`; the returned error is always `nil` and is left out. -/
def Delete (m : memcache) (key : String) : memcache :=
  match m.items.lookup key with
  | none => m
  | some element =>
    { m with items := m.items.erase key, list := Remove m.list element }

/-! ## Observations -/

/-- The stored entries, most recently used first. -/
def entries (m : memcache) : List cachedItem := m.list.map m.elems

/-- The sum of the payload lengths of the stored entries. -/
def storedBytes (m : memcache) : Nat := ((entries m).map fun i => i.payload.length).sum

/-- `len(m.items)`. -/
def indexSize (m : memcache) : Nat := m.items.entries.length

/-- The states the exported interface can produce: `NewMemCache` with options
built by `MaxItemLimit` and `MaxBytesLimit`, then calls of `Fetch`, `Set` (those
that return) and `Delete`. -/
inductive Reachable : memcache → Prop
  | init (opts : List cacheOption)
      (h : ∀ o ∈ opts, (∃ l, o = MaxItemLimit l) ∨ (∃ b, o = MaxBytesLimit b)) :
      Reachable (NewMemCache opts)
  | fetch {m : memcache} (key : String) (now : Int) :
      Reachable m → Reachable (Fetch m key now).1
  | set {m m' : memcache} (fuel : Nat) (key : String) (value : List UInt8) (exp now : Int) :
      Reachable m → Set fuel m key value exp now = some m' → Reachable m'
  | delete {m : memcache} (key : String) :
      Reachable m → Reachable (Delete m key)

/-! ## Invariants -/

/-- The index and the recency list describe the same elements: no pointer is
twice in the list, every index entry points to a list element that carries the
entry's key, and every list element is what the index holds for its key. -/
structure Linked (elems : Nat → cachedItem) (l : List Nat)
    (items : AList (fun _ : String => Nat)) : Prop where
  nodup : l.Nodup
  index_sound : ∀ k e, items.lookup k = some e → e ∈ l ∧ (elems e).key = k
  list_indexed : ∀ e ∈ l, items.lookup (elems e).key = some e

/-- The representation invariant of a cache state. -/
def Inv (m : memcache) : Prop := Linked m.elems m.list m.items

/-- Index and list consistency as the specification words it. -/
structure Consistent (m : memcache) : Prop where
  key_iff : ∀ k, k ∈ m.items ↔ ∃ i ∈ entries m, i.key = k
  index_refers : ∀ k e, m.items.lookup k = some e → e ∈ m.list ∧ (m.elems e).key = k
  keys_nodup : ((entries m).map fun i => i.key).Nodup
  length_eq : m.list.length = indexSize m

/-- The sum of the payload lengths of the elements of a list of pointers. -/
def bytesOf (elems : Nat → cachedItem) (l : List Nat) : Nat :=
  (l.map fun e => (elems e).payload.length).sum

/-- The state in which `Set` enters its eviction loop when `key` is new: the
counter raised, the new element allocated, pushed to the front and indexed. -/
def pushed (m : memcache) (key : String) (value : List UInt8) (exp now : Int) : memcache :=
  { m with
    currentBytes := uadd m.currentBytes value.length
    elems := store m.elems (fresh m) ⟨key, value, now + exp⟩
    list := fresh m :: m.list
    items := m.items.insert key (fresh m) }

/-- Loop invariant of the eviction loop started in `m0`, where `d` is the amount
by which `currentBytes` exceeds the stored payload bytes: `m` keeps a front part
of the list of `m0`, its counter is `d` plus the bytes of that part, and every
longer front part of the list of `m0` is over one of the limits. -/
structure Evicted (d : Nat) (m0 m : memcache) : Prop where
  elems_eq : m.elems = m0.elems
  maxItems_eq : m.maxItems = m0.maxItems
  maxBytes_eq : m.maxBytes = m0.maxBytes
  list_prefix : m.list <+: m0.list
  bytes_eq : m.currentBytes = d + bytesOf m0.elems m.list
  bytes_lt : m.currentBytes < uintSize
  longer_over : ∀ p, p <+: m0.list → m.list.length < p.length →
    m0.maxItems < p.length ∨ m0.maxBytes < d + bytesOf m0.elems p
  inv : Inv m

/-! ## Sequences of calls and the scenarios of `cache_test.go` -/

/-- The arguments of one call of `Set` and the clock reading during the call. -/
structure SetCall where
  key : String
  value : List UInt8
  exp : Int
  now : Int
deriving DecidableEq, Repr

/-- The entry that a call of `Set` writes. -/
def SetCall.item (c : SetCall) : cachedItem := ⟨c.key, c.value, c.now + c.exp⟩

/-- Consecutive calls of `Set`, each with the same fuel; `none` when one of them
does not return within its fuel. -/
def SetAll (fuel : Nat) : memcache → List SetCall → Option memcache
  | m, [] => some m
  | m, c :: cs => (Set fuel m c.key c.value c.exp c.now).bind fun m' => SetAll fuel m' cs

/-- The total payload length of a sequence of calls. -/
def totalBytes (calls : List SetCall) : Nat := (calls.map fun c => c.value.length).sum

/-- The bytes of `{"hello":"world"}`, the `testData` of the tests. -/
def testData : List UInt8 :=
  [123, 34, 104, 101, 108, 108, 111, 34, 58, 34, 119, 111, 114, 108, 100, 34, 125]

/-- The bytes of `{"hello":"universe"}`, the second payload of `TestSetExisting`. -/
def testData2 : List UInt8 :=
  [123, 34, 104, 101, 108, 108, 111, 34, 58, 34, 117, 110, 105, 118, 101, 114, 115, 101, 34, 125]

/-- One second, the `defaultExp` of the tests, in nanoseconds. -/
def defaultExp : Int := 1000000000

/-- The cache of `TestFetch`, `TestSet` and `TestDelete` after its first `Set`, made
at clock reading `0`. -/
def greetingCache : memcache :=
  (Set 1 (NewMemCache [MaxItemLimit 10]) "greeting" testData defaultExp 0).getD
    (NewMemCache [MaxItemLimit 10])

/-- A cache with a byte limit of 8 after `Set("a", 1 byte)`, `Set("a", 9 bytes)`
and `Delete("a")`: it is empty and its counter stands at 9. -/
def leakedCache : memcache :=
  Delete
    ((SetAll 1 (NewMemCache [MaxBytesLimit 8])
        [⟨"a", [1], defaultExp, 0⟩, ⟨"a", [1, 2, 3, 4, 5, 6, 7, 8, 9], defaultExp, 0⟩]).getD
      (NewMemCache [MaxBytesLimit 8]))
    "a"

/-- The cache of `TestSetOverBytesLimit` (byte limit 8) after its first two calls
of `Set`: keys `"0"` and `"1"` with the payloads `123` and `456`. -/
def bytesCache : memcache :=
  (SetAll 1 (NewMemCache [MaxBytesLimit 8])
      [⟨"0", [49, 50, 51], defaultExp, 0⟩, ⟨"1", [52, 53, 54], defaultExp, 0⟩]).getD
    (NewMemCache [MaxBytesLimit 8])

/-- What a cache with the limits `N` and `B` holds after the calls `calls`, all of
them with new keys, on a new cache: the entries of the `n` latest calls, latest
first, with an exact byte counter, where `n` is the largest number of latest
calls that fits both limits. -/
structure Keeps (N B : Nat) (calls : List SetCall) (m : memcache) (n : Nat) : Prop where
  inv : Inv m
  maxItems_eq : m.maxItems = N
  maxBytes_eq : m.maxBytes = B
  exact : m.currentBytes = storedBytes m
  le_length : n ≤ calls.length
  entries_eq : entries m = (calls.reverse.take n).map SetCall.item
  count_le : n ≤ N
  bytes_le : totalBytes (calls.reverse.take n) ≤ B
  maximal : ∀ n', n < n' → n' ≤ calls.length →
    N < n' ∨ B < totalBytes (calls.reverse.take n')

/-- The calls of `TestSetOverItemLimit`: the keys `"0"` to `"19"` in order, each
with its own bytes as payload, the call number `i` made at clock reading `i`. -/
def itemLimitCalls : List SetCall :=
  [
    ⟨"0", [48], defaultExp, 0⟩, ⟨"1", [49], defaultExp, 1⟩,
    ⟨"2", [50], defaultExp, 2⟩, ⟨"3", [51], defaultExp, 3⟩,
    ⟨"4", [52], defaultExp, 4⟩, ⟨"5", [53], defaultExp, 5⟩,
    ⟨"6", [54], defaultExp, 6⟩, ⟨"7", [55], defaultExp, 7⟩,
    ⟨"8", [56], defaultExp, 8⟩, ⟨"9", [57], defaultExp, 9⟩,
    ⟨"10", [49, 48], defaultExp, 10⟩, ⟨"11", [49, 49], defaultExp, 11⟩,
    ⟨"12", [49, 50], defaultExp, 12⟩, ⟨"13", [49, 51], defaultExp, 13⟩,
    ⟨"14", [49, 52], defaultExp, 14⟩, ⟨"15", [49, 53], defaultExp, 15⟩,
    ⟨"16", [49, 54], defaultExp, 16⟩, ⟨"17", [49, 55], defaultExp, 17⟩,
    ⟨"18", [49, 56], defaultExp, 18⟩, ⟨"19", [49, 57], defaultExp, 19⟩]

/-- The calls of `TestSetOverBytesLimit`: three payloads of three bytes each. -/
def bytesLimitCalls : List SetCall :=
  [⟨"0", [49, 50, 51], defaultExp, 0⟩, ⟨"1", [52, 53, 54], defaultExp, 1⟩,
    ⟨"2", [55, 56, 57], defaultExp, 2⟩]

/-! ## Definitions for removal, recency and the byte counter -/

/-- What removing the entry of key `k`, held by element `e`, makes of `m`: the
state `m'` has the key in neither structure, one item less in each, and every
other entry where and as it was. -/
structure Removed (m : memcache) (k : String) (e : Nat) (m' : memcache) : Prop where
  /-- the index no longer holds the key -/
  not_in_index : m'.items.lookup k = none
  /-- no list entry carries the key, and the element is unlinked -/
  not_in_list : e ∉ m'.list ∧ ∀ i ∈ entries m', i.key ≠ k
  /-- one item less in the list -/
  list_length : m'.list.length + 1 = m.list.length
  /-- one item less in the index -/
  index_size : indexSize m' + 1 = indexSize m
  /-- the other elements keep their order -/
  list_eq : m'.list = m.list.filter fun q => decide (q ≠ e)
  /-- the other entries keep their order and their contents -/
  entries_eq : entries m' = (entries m).filter fun i => decide (i.key ≠ k)
  /-- the other keys keep their index entry -/
  index_eq : ∀ k', k' ≠ k → m'.items.lookup k' = m.items.lookup k'
  /-- no element is written to -/
  elems_eq : m'.elems = m.elems
  /-- the limits are unchanged -/
  limits_eq : m'.maxItems = m.maxItems ∧ m'.maxBytes = m.maxBytes

/-- A cache with `MaxItemLimit(2)` after `Set("a", ..)` and `Set("b", ..)`: it is
full, `"b"` is at the head of the list and `"a"` at the tail. -/
def twoCache : memcache :=
  (SetAll 1 (NewMemCache [MaxItemLimit 2])
      [⟨"a", [1], defaultExp, 0⟩, ⟨"b", [2], defaultExp, 1⟩]).getD
    (NewMemCache [MaxItemLimit 2])

/-- The addition to `currentBytes` in `Set(key, value)` does not wrap around: on
the path for a stored key the counter is first lowered by the old payload length. -/
def addFits (m : memcache) (key : String) (value : List UInt8) : Prop :=
  match m.items.lookup key with
  | some element =>
    usub m.currentBytes (m.elems element).payload.length + value.length < uintSize
  | none => m.currentBytes + value.length < uintSize

instance (m : memcache) (key : String) (value : List UInt8) :
    Decidable (addFits m key value) := by
  unfold addFits
  split <;> infer_instance

/-- The states reachable as in `Reachable` by calls of which no addition to
`currentBytes` has wrapped around. -/
inductive ReachableFits : memcache → Prop
  | init (opts : List cacheOption)
      (h : ∀ o ∈ opts, (∃ l, o = MaxItemLimit l) ∨ (∃ b, o = MaxBytesLimit b)) :
      ReachableFits (NewMemCache opts)
  | fetch {m : memcache} (key : String) (now : Int) :
      ReachableFits m → ReachableFits (Fetch m key now).1
  | set {m m' : memcache} (fuel : Nat) (key : String) (value : List UInt8) (exp now : Int) :
      ReachableFits m → addFits m key value → Set fuel m key value exp now = some m' →
      ReachableFits m'
  | delete {m : memcache} (key : String) :
      ReachableFits m → ReachableFits (Delete m key)

/-- A consistent state whose byte counter, a `uint`, is not below the stored
payload bytes. -/
structure Counted (m : memcache) : Prop where
  inv : Inv m
  stored_le : storedBytes m ≤ m.currentBytes
  bytes_lt : m.currentBytes < uintSize

/-- Three calls with payloads of two bytes each: with `maxItems = 1` and
`maxBytes = 5` the counter never goes beyond 4, though all payloads together take 6
bytes. -/
def twoByteCalls : List SetCall :=
  [⟨"a", [1, 2], defaultExp, 0⟩, ⟨"b", [3, 4], defaultExp, 1⟩, ⟨"c", [5, 6], defaultExp, 2⟩]

/-- Five calls with payloads of three bytes each: with `maxBytes = 8` and
`maxItems = 4` the list never holds more than three items, though there are five
calls. -/
def threeByteCalls : List SetCall :=
  [⟨"a", [1, 2, 3], defaultExp, 0⟩, ⟨"b", [4, 5, 6], defaultExp, 1⟩,
    ⟨"c", [7, 8, 9], defaultExp, 2⟩, ⟨"d", [10, 11, 12], defaultExp, 3⟩,
    ⟨"e", [13, 14, 15], defaultExp, 4⟩]

/-! ## Arithmetic on `uint` -/

theorem uadd_lt (a b : Nat) : uadd a b < uintSize :=
  Nat.mod_lt _ (by unfold uintSize; positivity)

theorem usub_lt (a b : Nat) : usub a b < uintSize :=
  Nat.mod_lt _ (by unfold uintSize; positivity)

theorem uadd_eq {a b : Nat} (h : a + b < uintSize) : uadd a b = a + b :=
  Nat.mod_eq_of_lt h

theorem usub_eq {a b : Nat} (hb : b ≤ a) (ha : a < uintSize) : usub a b = a - b := by
  unfold usub uintSize at *
  omega

/-! ## The list operations -/

theorem MoveToFront_perm (l : List Nat) (e : Nat) : (MoveToFront l e).Perm l := by
  unfold MoveToFront
  split
  · next h => exact (List.perm_cons_erase h).symm
  · exact List.Perm.refl _

theorem mem_MoveToFront {l : List Nat} {e q : Nat} : q ∈ MoveToFront l e ↔ q ∈ l :=
  (MoveToFront_perm l e).mem_iff

theorem length_MoveToFront (l : List Nat) (e : Nat) : (MoveToFront l e).length = l.length :=
  (MoveToFront_perm l e).length_eq

theorem MoveToFront_of_mem {l : List Nat} {e : Nat} (h : e ∈ l) :
    MoveToFront l e = e :: l.erase e := by
  simp [MoveToFront, h]

theorem Back_append_singleton (l : List Nat) (a : Nat) : Back (l ++ [a]) = some a := by
  simp [Back]

theorem Back_eq_none {l : List Nat} : Back l = none ↔ l = [] := by
  simp [Back]

theorem Back_eq_some {l : List Nat} {a : Nat} (h : Back l = some a) :
    ∃ l', l = l' ++ [a] := by
  unfold Back at h
  induction l using List.reverseRecOn with
  | nil => simp at h
  | append_singleton l' b _ =>
    simp at h
    exact ⟨l', by rw [h]⟩

theorem Remove_append_singleton {l : List Nat} {a : Nat} (h : a ∉ l) :
    Remove (l ++ [a]) a = l := by
  unfold Remove
  rw [List.erase_append_right _ h]
  simp

/-! ## Fresh pointers -/

theorem le_foldr_max {l : List Nat} {a : Nat} (h : a ∈ l) : a ≤ l.foldr max 0 := by
  induction l with
  | nil => simp at h
  | cons b t ih =>
    simp only [List.foldr_cons]
    rcases List.mem_cons.1 h with rfl | h
    · exact le_max_left _ _
    · exact le_trans (ih h) (le_max_right _ _)

theorem fresh_not_mem (m : memcache) : fresh m ∉ m.list := by
  intro h
  have := le_foldr_max (List.mem_append_left (m.items.entries.map fun s => s.2) h)
  unfold fresh at this
  omega

theorem lookup_ne_fresh (m : memcache) (k : String) : m.items.lookup k ≠ some (fresh m) := by
  intro h
  have h1 : (⟨k, fresh m⟩ : Sigma fun _ : String => Nat) ∈ m.items.entries :=
    AList.mem_lookup_iff.1 h
  have h2 : fresh m ∈ m.items.entries.map fun s => s.2 :=
    List.mem_map.2 ⟨_, h1, rfl⟩
  have := le_foldr_max (List.mem_append_right m.list h2)
  unfold fresh at this
  omega

/-! ## Preservation of the representation invariant -/

theorem Linked.empty (elems : Nat → cachedItem) : Linked elems [] ∅ :=
  ⟨List.nodup_nil, fun k e h => by simp [AList.lookup_empty] at h, fun e h => by simp at h⟩

theorem Linked.of_perm {elems : Nat → cachedItem} {l l' : List Nat}
    {items : AList (fun _ : String => Nat)} (h : Linked elems l items) (hp : l'.Perm l) :
    Linked elems l' items :=
  ⟨hp.nodup_iff.2 h.nodup,
    fun k e hk => ⟨hp.mem_iff.2 (h.index_sound k e hk).1, (h.index_sound k e hk).2⟩,
    fun e he => h.list_indexed e (hp.mem_iff.1 he)⟩

theorem Linked.congr_keys {elems elems' : Nat → cachedItem} {l : List Nat}
    {items : AList (fun _ : String => Nat)} (h : Linked elems l items)
    (hk : ∀ e ∈ l, (elems' e).key = (elems e).key) : Linked elems' l items :=
  ⟨h.nodup,
    fun k e hl => ⟨(h.index_sound k e hl).1,
      by rw [hk e (h.index_sound k e hl).1]; exact (h.index_sound k e hl).2⟩,
    fun e he => by rw [hk e he]; exact h.list_indexed e he⟩

/-- Two list elements with the same key are the same element. -/
theorem Linked.key_inj {elems : Nat → cachedItem} {l : List Nat}
    {items : AList (fun _ : String => Nat)} (h : Linked elems l items) {a b : Nat}
    (ha : a ∈ l) (hb : b ∈ l) (hab : (elems a).key = (elems b).key) : a = b := by
  have h1 := h.list_indexed a ha
  have h2 := h.list_indexed b hb
  rw [hab, h2] at h1
  exact (Option.some.inj h1).symm

/-- Unlinking a list element and deleting its key from the index. -/
theorem Linked.remove {elems : Nat → cachedItem} {l : List Nat}
    {items : AList (fun _ : String => Nat)} (h : Linked elems l items) {e : Nat}
    (he : e ∈ l) : Linked elems (l.erase e) (items.erase (elems e).key) := by
  refine ⟨h.nodup.erase e, ?_, ?_⟩
  · intro k q hk
    by_cases hkk : k = (elems e).key
    · rw [hkk, AList.lookup_erase] at hk
      cases hk
    · rw [AList.lookup_erase_ne hkk] at hk
      obtain ⟨hq, hqk⟩ := h.index_sound k q hk
      refine ⟨(List.mem_erase_of_ne ?_).2 hq, hqk⟩
      rintro rfl
      exact hkk hqk.symm
  · intro q hq
    have hq' : q ∈ l := List.mem_of_mem_erase hq
    have hne : q ≠ e := fun hqe => (h.nodup.mem_erase_iff.1 hq).1 hqe
    have hkk : (elems q).key ≠ (elems e).key := fun hk => hne (h.key_inj hq' he hk)
    rw [AList.lookup_erase_ne hkk]
    exact h.list_indexed q hq'

/-- Linking a new element at the front under a key the index does not hold. -/
theorem Linked.push {elems : Nat → cachedItem} {l : List Nat}
    {items : AList (fun _ : String => Nat)} (h : Linked elems l items) {e : Nat}
    (he : e ∉ l) {v : cachedItem} (hv : items.lookup v.key = none) :
    Linked (store elems e v) (e :: l) (items.insert v.key e) := by
  have hst : ∀ q ∈ l, store elems e v q = elems q := by
    intro q hq
    have : q ≠ e := fun hqe => he (hqe ▸ hq)
    simp [store, this]
  have hse : store elems e v e = v := by simp [store]
  refine ⟨List.nodup_cons.2 ⟨he, h.nodup⟩, ?_, ?_⟩
  · intro k q hk
    by_cases hkk : k = v.key
    · subst hkk
      rw [AList.lookup_insert] at hk
      cases hk
      exact ⟨List.mem_cons_self _ _, by rw [hse]⟩
    · rw [AList.lookup_insert_ne hkk] at hk
      obtain ⟨hq, hqk⟩ := h.index_sound k q hk
      exact ⟨List.mem_cons_of_mem _ hq, by rw [hst q hq]; exact hqk⟩
  · intro q hq
    rcases List.mem_cons.1 hq with rfl | hq
    · rw [hse, AList.lookup_insert]
    · rw [hst q hq]
      have hl := h.list_indexed q hq
      have hkk : (elems q).key ≠ v.key := by
        intro hk
        rw [hk, hv] at hl
        cases hl
      rw [AList.lookup_insert_ne hkk]
      exact hl

theorem foldl_options_fields (opts : List cacheOption)
    (h : ∀ o ∈ opts, (∃ l, o = MaxItemLimit l) ∨ (∃ b, o = MaxBytesLimit b)) (m0 : memcache) :
    (opts.foldl (fun m o => o m) m0).list = m0.list ∧
      (opts.foldl (fun m o => o m) m0).items = m0.items ∧
      (opts.foldl (fun m o => o m) m0).currentBytes = m0.currentBytes := by
  induction opts generalizing m0 with
  | nil => exact ⟨rfl, rfl, rfl⟩
  | cons o t ih =>
    simp only [List.foldl_cons]
    have := ih (fun o' ho' => h o' (List.mem_cons_of_mem _ ho')) (o m0)
    rcases h o (List.mem_cons_self _ _) with ⟨l, rfl⟩ | ⟨b, rfl⟩
    · exact this
    · exact this

theorem NewMemCache_fields (opts : List cacheOption)
    (h : ∀ o ∈ opts, (∃ l, o = MaxItemLimit l) ∨ (∃ b, o = MaxBytesLimit b)) :
    (NewMemCache opts).list = [] ∧ (NewMemCache opts).items = ∅ ∧
      (NewMemCache opts).currentBytes = 0 :=
  foldl_options_fields opts h _

theorem Inv_NewMemCache (opts : List cacheOption)
    (h : ∀ o ∈ opts, (∃ l, o = MaxItemLimit l) ∨ (∃ b, o = MaxBytesLimit b)) :
    Inv (NewMemCache opts) := by
  obtain ⟨h1, h2, _⟩ := NewMemCache_fields opts h
  unfold Inv
  rw [h1, h2]
  exact Linked.empty _

theorem Inv_Fetch {m : memcache} (h : Inv m) (key : String) (now : Int) :
    Inv (Fetch m key now).1 := by
  unfold Fetch
  split
  · exact h
  · next element hl =>
    obtain ⟨hmem, hkey⟩ := h.index_sound key element hl
    dsimp only
    split
    · exact Linked.remove h hmem
    · exact Linked.of_perm h (MoveToFront_perm _ _)

theorem Inv_Delete {m : memcache} (h : Inv m) (key : String) : Inv (Delete m key) := by
  unfold Delete
  split
  · exact h
  · next element hl =>
    obtain ⟨hmem, hkey⟩ := h.index_sound key element hl
    have := Linked.remove h hmem
    rw [hkey] at this
    exact this

theorem Inv_evictStep {m : memcache} (h : Inv m) : Inv (evictStep m) := by
  unfold evictStep
  split
  · exact h
  · next e hb =>
    obtain ⟨l', hl'⟩ := Back_eq_some hb
    have hmem : e ∈ m.list := by rw [hl']; simp
    exact Linked.remove h hmem

theorem Inv_evictLoop {fuel : Nat} {m m' : memcache} (h : Inv m)
    (hr : evictLoop fuel m = some m') : Inv m' := by
  induction fuel generalizing m with
  | zero => simp [evictLoop] at hr
  | succ n ih =>
    unfold evictLoop at hr
    split at hr
    · exact ih (Inv_evictStep h) hr
    · cases hr
      exact h

theorem Inv_Set {fuel : Nat} {m m' : memcache} (h : Inv m) {key : String}
    {value : List UInt8} {exp now : Int} (hr : Set fuel m key value exp now = some m') :
    Inv m' := by
  unfold Set at hr
  split at hr
  · next element hl =>
    cases hr
    refine Linked.of_perm (Linked.congr_keys h ?_) (MoveToFront_perm _ _)
    intro e _
    show (store m.elems element _ e).key = (m.elems e).key
    unfold store
    by_cases he : e = element
    · simp [he]
    · simp [he]
  · next hl =>
    refine Inv_evictLoop ?_ hr
    exact Linked.push h (fresh_not_mem m) (v := ⟨key, value, now + exp⟩) hl

theorem Reachable.inv {m : memcache} (h : Reachable m) : Inv m := by
  induction h with
  | init opts h => exact Inv_NewMemCache opts h
  | fetch key now _ ih => exact Inv_Fetch ih key now
  | set fuel key value exp now _ hr ih => exact Inv_Set ih hr
  | delete key _ ih => exact Inv_Delete ih key

theorem Inv.consistent {m : memcache} (h : Inv m) : Consistent m := by
  have hmap : (entries m).map (fun i => i.key) = m.list.map fun e => (m.elems e).key := by
    simp [entries, List.map_map, Function.comp_def]
  have hnd : (m.list.map fun e => (m.elems e).key).Nodup :=
    List.Nodup.map_on (fun a ha b hb hab => h.key_inj ha hb hab) h.nodup
  have hiff : ∀ k, k ∈ m.items ↔ ∃ i ∈ entries m, i.key = k := by
    intro k
    constructor
    · intro hk
      have hs := AList.lookup_isSome.2 hk
      obtain ⟨e, he⟩ := Option.isSome_iff_exists.1 hs
      obtain ⟨hmem, hkey⟩ := h.index_sound k e he
      exact ⟨m.elems e, List.mem_map.2 ⟨e, hmem, rfl⟩, hkey⟩
    · rintro ⟨i, hi, rfl⟩
      obtain ⟨e, he, rfl⟩ := List.mem_map.1 hi
      apply AList.lookup_isSome.1
      rw [h.list_indexed e he]
      rfl
  refine ⟨hiff, h.index_sound, by rw [hmap]; exact hnd, ?_⟩
  have hperm : (m.list.map fun e => (m.elems e).key).Perm m.items.keys := by
    rw [List.perm_ext_iff_of_nodup hnd m.items.keys_nodup]
    intro k
    rw [← AList.mem_keys, hiff k, ← hmap]
    simp
  have := hperm.length_eq
  simpa [indexSize, AList.keys, List.keys] using this

/-! ## The eviction loop -/

theorem storedBytes_eq (m : memcache) : storedBytes m = bytesOf m.elems m.list := by
  simp [storedBytes, entries, bytesOf, List.map_map, Function.comp_def]

theorem bytesOf_append (elems : Nat → cachedItem) (l₁ l₂ : List Nat) :
    bytesOf elems (l₁ ++ l₂) = bytesOf elems l₁ + bytesOf elems l₂ := by
  simp [bytesOf]

theorem bytesOf_congr {elems elems' : Nat → cachedItem} {l : List Nat}
    (h : ∀ e ∈ l, elems' e = elems e) : bytesOf elems' l = bytesOf elems l := by
  unfold bytesOf
  congr 1
  exact List.map_congr_left fun e he => by rw [h e he]

theorem Set_of_lookup_none {m : memcache} {key : String} (h : m.items.lookup key = none)
    (fuel : Nat) (value : List UInt8) (exp now : Int) :
    Set fuel m key value exp now = evictLoop fuel (pushed m key value exp now) := by
  unfold Set
  rw [h]
  rfl

theorem evictStep_of_nil {m : memcache} (h : m.list = []) : evictStep m = m := by
  unfold evictStep
  rw [h]
  rfl

theorem evictStep_of_append {m : memcache} {l : List Nat} {a : Nat} (h : m.list = l ++ [a])
    (ha : a ∉ l) :
    evictStep m = { m with
      items := m.items.erase (m.elems a).key
      list := l
      currentBytes := usub m.currentBytes (m.elems a).payload.length } := by
  unfold evictStep
  rw [h, Back_append_singleton]
  simp only [Remove_append_singleton ha]

theorem Evicted.refl {d : Nat} {m : memcache} (hinv : Inv m)
    (hb : m.currentBytes = d + bytesOf m.elems m.list) (hlt : m.currentBytes < uintSize) :
    Evicted d m m :=
  ⟨rfl, rfl, rfl, List.prefix_refl _, hb, hlt,
    fun p hp hlen => absurd hp.length_le (by omega), hinv⟩

theorem Evicted.evict {d : Nat} {m0 m : memcache} (h : Evicted d m0 m) (ho : overLimit m) :
    Evicted d m0 (evictStep m) := by
  rcases List.eq_nil_or_concat m.list with hnil | ⟨l, a, hl⟩
  · rw [evictStep_of_nil hnil]
    exact h
  · rw [List.concat_eq_append] at hl
    have hnd : (l ++ [a]).Nodup := hl ▸ h.inv.nodup
    have ha : a ∉ l := by
      intro hmem
      have := List.nodup_append.1 hnd
      exact this.2.2 hmem (List.mem_singleton_self a)
    have hstep := evictStep_of_append hl ha
    have hbytes : m.currentBytes = d + bytesOf m0.elems l + (m.elems a).payload.length := by
      rw [h.bytes_eq, hl, bytesOf_append, h.elems_eq]
      simp [bytesOf, Nat.add_assoc]
    refine ⟨?_, ?_, ?_, ?_, ?_, ?_, ?_, Inv_evictStep h.inv⟩
    · rw [hstep]; exact h.elems_eq
    · rw [hstep]; exact h.maxItems_eq
    · rw [hstep]; exact h.maxBytes_eq
    · rw [hstep]
      exact List.IsPrefix.trans (List.prefix_append l [a]) (hl ▸ h.list_prefix)
    · rw [hstep]
      show usub m.currentBytes (m.elems a).payload.length = d + bytesOf m0.elems l
      rw [usub_eq (by omega) h.bytes_lt]
      omega
    · rw [hstep]
      show usub m.currentBytes (m.elems a).payload.length < uintSize
      exact usub_lt _ _
    · intro p hp hlen
      rw [hstep] at hlen
      have hlen : l.length < p.length := hlen
      by_cases hlt : m.list.length < p.length
      · exact h.longer_over p hp hlt
      · have hlen2 : p.length = m.list.length := by
          rw [hl] at hlt ⊢
          simp at hlt ⊢
          omega
        have hpm : p = m.list :=
          (List.prefix_of_prefix_length_le hp h.list_prefix (le_of_eq hlen2)).eq_of_length hlen2
        rw [hpm, ← h.bytes_eq, ← h.maxItems_eq, ← h.maxBytes_eq]
        exact ho

theorem evictLoop_evicted {d : Nat} {m0 m m' : memcache} {fuel : Nat} (h : Evicted d m0 m)
    (hr : evictLoop fuel m = some m') : Evicted d m0 m' ∧ ¬ overLimit m' := by
  induction fuel generalizing m with
  | zero => simp [evictLoop] at hr
  | succ n ih =>
    unfold evictLoop at hr
    split at hr
    · next ho => exact ih (h.evict ho) hr
    · next ho =>
      cases hr
      exact ⟨h, ho⟩

theorem length_evictStep (m : memcache) : (evictStep m).list.length = m.list.length - 1 := by
  unfold evictStep
  cases hb : Back m.list with
  | none => simp [Back_eq_none.1 hb]
  | some e =>
    obtain ⟨l, hl⟩ := Back_eq_some hb
    have hmem : e ∈ m.list := by rw [hl]; simp
    simp [Remove, List.length_erase_of_mem hmem]

theorem evictLoop_terminates {d : Nat} {m0 m : memcache} (h : Evicted d m0 m)
    (hd : d ≤ m0.maxBytes) {fuel : Nat} (hf : m.list.length < fuel) :
    ∃ m', evictLoop fuel m = some m' := by
  induction fuel generalizing m with
  | zero => omega
  | succ n ih =>
    unfold evictLoop
    split
    · next ho =>
      apply ih (h.evict ho)
      rw [length_evictStep]
      have hne : m.list ≠ [] := by
        intro hnil
        have hb := h.bytes_eq
        rw [hnil] at hb
        rcases ho with ho | ho
        · rw [hnil] at ho
          simp at ho
        · rw [h.maxBytes_eq] at ho
          simp [bytesOf] at hb
          omega
      have : 0 < m.list.length := List.length_pos.2 hne
      omega
    · exact ⟨m, rfl⟩

theorem evictLoop_mono {fuel : Nat} {m m' : memcache} (h : evictLoop fuel m = some m')
    (k : Nat) : evictLoop (fuel + k) m = some m' := by
  induction fuel generalizing m with
  | zero => simp [evictLoop] at h
  | succ n ih =>
    rw [Nat.add_right_comm]
    unfold evictLoop at h ⊢
    split
    · next ho =>
      rw [if_pos ho] at h
      exact ih h
    · next ho =>
      rw [if_neg ho] at h
      exact h

/-! ## Sequences of calls -/

theorem Reachable.setAll {fuel : Nat} {m m' : memcache} {calls : List SetCall}
    (h : Reachable m) (hr : SetAll fuel m calls = some m') : Reachable m' := by
  induction calls generalizing m with
  | nil =>
    simp only [SetAll, Option.some.injEq] at hr
    exact hr ▸ h
  | cons c cs ih =>
    simp only [SetAll] at hr
    cases hs : Set fuel m c.key c.value c.exp c.now with
    | none => simp [hs] at hr
    | some m1 =>
      rw [hs] at hr
      exact ih (Reachable.set fuel c.key c.value c.exp c.now h hs) hr

theorem some_getD_of_isSome {α : Type} {o : Option α} (h : o.isSome = true) (d : α) :
    o = some (o.getD d) := by
  cases o with
  | none => cases h
  | some a => rfl

theorem reachable_greetingCache : Reachable greetingCache :=
  Reachable.set 1 "greeting" testData defaultExp 0 (Reachable.init _ (by simp))
    (some_getD_of_isSome (by decide) _)

theorem reachable_leakedCache : Reachable leakedCache :=
  Reachable.delete "a"
    (Reachable.setAll (Reachable.init _ (by simp)) (some_getD_of_isSome (by decide) _))

theorem reachable_bytesCache : Reachable bytesCache :=
  Reachable.setAll (Reachable.init _ (by simp)) (some_getD_of_isSome (by decide) _)

/-! ## Set on a stored key, and expiry -/

theorem evictLoop_stuck {m : memcache} (hl : m.list = []) (ho : overLimit m) (fuel : Nat) :
    evictLoop fuel m = none := by
  induction fuel with
  | zero => rfl
  | succ n ih =>
    unfold evictLoop
    rw [if_pos ho, evictStep_of_nil hl]
    exact ih

theorem lookup_evictStep (m : memcache) (k : String) :
    (evictStep m).items.lookup k = none ∨ (evictStep m).items.lookup k = m.items.lookup k := by
  unfold evictStep
  split
  · exact Or.inr rfl
  · next e _ =>
    by_cases hk : k = (m.elems e).key
    · left
      rw [hk]
      exact AList.lookup_erase _ _
    · right
      exact AList.lookup_erase_ne hk

theorem elems_evictStep (m : memcache) : (evictStep m).elems = m.elems := by
  unfold evictStep
  split <;> rfl

theorem evictLoop_lookup {fuel : Nat} {m m' : memcache} (hr : evictLoop fuel m = some m')
    (k : String) :
    m'.elems = m.elems ∧ (m'.items.lookup k = none ∨ m'.items.lookup k = m.items.lookup k) := by
  induction fuel generalizing m with
  | zero => simp [evictLoop] at hr
  | succ n ih =>
    unfold evictLoop at hr
    split at hr
    · obtain ⟨h1, h2⟩ := ih hr
      refine ⟨h1.trans (elems_evictStep m), ?_⟩
      rcases h2 with h2 | h2
      · exact Or.inl h2
      · rcases lookup_evictStep m k with h3 | h3
        · exact Or.inl (h2.trans h3)
        · exact Or.inr (h2.trans h3)
    · cases hr
      exact ⟨rfl, Or.inr rfl⟩

theorem evictLoop_not_over {fuel : Nat} {m m' : memcache} (hr : evictLoop fuel m = some m') :
    ¬ overLimit m' := by
  induction fuel generalizing m with
  | zero => simp [evictLoop] at hr
  | succ n ih =>
    unfold evictLoop at hr
    split at hr
    · exact ih hr
    · next ho =>
      cases hr
      exact ho

/-- When `Set` of a key that is not stored returns, both limits hold. -/
theorem Set_new_within_limits {fuel : Nat} {m m' : memcache} {key : String}
    {value : List UInt8} {exp now : Int} (hl : m.items.lookup key = none)
    (hr : Set fuel m key value exp now = some m') :
    m'.list.length ≤ m'.maxItems ∧ m'.currentBytes ≤ m'.maxBytes := by
  rw [Set_of_lookup_none hl] at hr
  have := evictLoop_not_over hr
  unfold overLimit at this
  omega

/-- What `Set` leaves under `key` when it returns: nothing, or an element holding
the new payload and the new expiry. -/
theorem Set_lookup {fuel : Nat} {m m' : memcache} {key : String} {value : List UInt8}
    {exp now : Int} (hr : Set fuel m key value exp now = some m') :
    m'.items.lookup key = none ∨
      ∃ e, m'.items.lookup key = some e ∧ (m'.elems e).payload = value ∧
        (m'.elems e).expireAt = now + exp := by
  cases hl : m.items.lookup key with
  | some element =>
    right
    unfold Set at hr
    rw [hl] at hr
    cases hr
    exact ⟨element, hl, by simp [store], by simp [store]⟩
  | none =>
    rw [Set_of_lookup_none hl] at hr
    obtain ⟨h1, h2⟩ := evictLoop_lookup hr key
    rcases h2 with h2 | h2
    · exact Or.inl h2
    · right
      refine ⟨fresh m, ?_, ?_, ?_⟩
      · rw [h2]
        exact AList.lookup_insert _
      · rw [h1]
        simp [pushed, store]
      · rw [h1]
        simp [pushed, store]

/-! ## Set on a new key -/

theorem Inv_pushed {m : memcache} (hinv : Inv m) {key : String}
    (hl : m.items.lookup key = none) (value : List UInt8) (exp now : Int) :
    Inv (pushed m key value exp now) :=
  Linked.push hinv (fresh_not_mem m) (v := ⟨key, value, now + exp⟩) hl

theorem elems_pushed_of_mem {m : memcache} {e : Nat} (he : e ∈ m.list) (key : String)
    (value : List UInt8) (exp now : Int) : (pushed m key value exp now).elems e = m.elems e := by
  have : e ≠ fresh m := fun h => fresh_not_mem m (h ▸ he)
  simp [pushed, store, this]

theorem elems_pushed_fresh (m : memcache) (key : String) (value : List UInt8) (exp now : Int) :
    (pushed m key value exp now).elems (fresh m) = ⟨key, value, now + exp⟩ := by
  simp [pushed, store]

theorem entries_pushed (m : memcache) (key : String) (value : List UInt8) (exp now : Int) :
    entries (pushed m key value exp now) = ⟨key, value, now + exp⟩ :: entries m := by
  unfold entries
  show List.map (pushed m key value exp now).elems (fresh m :: m.list) = _
  rw [List.map_cons, elems_pushed_fresh]
  congr 1
  exact List.map_congr_left fun e he => elems_pushed_of_mem he key value exp now

theorem bytesOf_pushed (m : memcache) (key : String) (value : List UInt8) (exp now : Int) :
    bytesOf (pushed m key value exp now).elems (pushed m key value exp now).list =
      value.length + storedBytes m := by
  rw [← storedBytes_eq, storedBytes, entries_pushed]
  simp [storedBytes]

theorem Evicted.of_pushed {m : memcache} (hinv : Inv m) {key : String}
    (hl : m.items.lookup key = none) {d : Nat} (hb : m.currentBytes = d + storedBytes m)
    {value : List UInt8} (hw : m.currentBytes + value.length < uintSize) (exp now : Int) :
    Evicted d (pushed m key value exp now) (pushed m key value exp now) := by
  have hc : (pushed m key value exp now).currentBytes = m.currentBytes + value.length :=
    uadd_eq hw
  refine Evicted.refl (Inv_pushed hinv hl value exp now) ?_ ?_
  · rw [bytesOf_pushed, hc, hb]
    omega
  · rw [hc]
    exact hw

/-- `Set` returns when the byte counter exceeds the stored bytes by no more than
`maxBytes` (and the addition does not overflow): the list length plus two is
enough fuel. -/
theorem Set_returns {m : memcache} (hinv : Inv m) {d : Nat}
    (hb : m.currentBytes = d + storedBytes m) (hd : d ≤ m.maxBytes) (key : String)
    {value : List UInt8} (hw : m.currentBytes + value.length < uintSize) (exp now : Int)
    (fuel : Nat) (hf : m.list.length + 2 ≤ fuel) :
    ∃ m', Set fuel m key value exp now = some m' := by
  cases hl : m.items.lookup key with
  | some element =>
    unfold Set
    rw [hl]
    exact ⟨_, rfl⟩
  | none =>
    rw [Set_of_lookup_none hl]
    refine evictLoop_terminates (Evicted.of_pushed hinv hl hb hw exp now) hd ?_
    show (fresh m :: m.list).length < fuel
    simp
    omega

/-- The result of `Set` on a new key: the pushed state with the loop invariant at
its exit. -/
theorem Set_new_evicted {m m' : memcache} (hinv : Inv m) {key : String}
    (hl : m.items.lookup key = none) {d : Nat} (hb : m.currentBytes = d + storedBytes m)
    {value : List UInt8} (hw : m.currentBytes + value.length < uintSize) {exp now : Int}
    {fuel : Nat} (hr : Set fuel m key value exp now = some m') :
    Evicted d (pushed m key value exp now) m' ∧ ¬ overLimit m' := by
  rw [Set_of_lookup_none hl] at hr
  exact evictLoop_evicted (Evicted.of_pushed hinv hl hb hw exp now) hr

theorem Linked.lookup_iff {elems : Nat → cachedItem} {l : List Nat}
    {items : AList (fun _ : String => Nat)} (h : Linked elems l items) (k : String) (e : Nat) :
    items.lookup k = some e ↔ e ∈ l ∧ (elems e).key = k :=
  ⟨h.index_sound k e, fun ⟨he, hk⟩ => hk ▸ h.list_indexed e he⟩

theorem Linked.items_eq_empty {elems : Nat → cachedItem}
    {items : AList (fun _ : String => Nat)} (h : Linked elems [] items) : items = ∅ := by
  apply AList.ext
  rw [AList.empty_entries]
  apply List.eq_nil_iff_forall_not_mem.2
  rintro ⟨k, e⟩ hmem
  have := (h.index_sound k e (AList.mem_lookup_iff.2 hmem)).1
  simp at this

/-! ## The result of Fetch -/

theorem Fetch_of_none {m : memcache} {key : String} (h : m.items.lookup key = none)
    (now : Int) : Fetch m key now = (m, .error .ErrNotFound) := by
  unfold Fetch
  rw [h]

theorem Fetch_result_of_expired {m : memcache} {key : String} {e : Nat}
    (h : m.items.lookup key = some e) {now : Int} (hx : (m.elems e).expireAt < now) :
    (Fetch m key now).2 = .error .ErrNotFound := by
  unfold Fetch
  rw [h]
  simp [hx]

theorem Fetch_result_of_live {m : memcache} {key : String} {e : Nat}
    (h : m.items.lookup key = some e) {now : Int} (hx : ¬ (m.elems e).expireAt < now) :
    (Fetch m key now).2 = .ok (m.elems e).payload := by
  unfold Fetch
  rw [h]
  simp [hx]

theorem uadd_usub_cast (c a b : Nat) :
    ((uadd (usub c a) b : Nat) : Int) = ((c : Int) - a + b) % (uintSize : Nat) := by
  simp only [uadd, usub, uintSize, Nat.reducePow]
  omega

theorem uadd_usub_eq {c a b : Nat} (hc : c < uintSize) (ha : a ≤ c)
    (hb : c - a + b < uintSize) : uadd (usub c a) b = c - a + b := by
  rw [usub_eq ha hc, uadd_eq hb]

theorem Set_of_lookup_some {m : memcache} {key : String} {e : Nat}
    (h : m.items.lookup key = some e) (fuel : Nat) (value : List UInt8) (exp now : Int) :
    Set fuel m key value exp now =
      some { m with
        elems := store m.elems e ⟨(m.elems e).key, value, now + exp⟩
        currentBytes := uadd (usub m.currentBytes (m.elems e).payload.length) value.length
        list := MoveToFront m.list e } := by
  unfold Set
  rw [h]

/-! ## Consecutive calls of Set with new keys on a new cache -/

theorem SetAll_append (fuel : Nat) (m : memcache) (cs : List SetCall) (c : SetCall) :
    SetAll fuel m (cs ++ [c]) =
      (SetAll fuel m cs).bind fun m' => Set fuel m' c.key c.value c.exp c.now := by
  induction cs generalizing m with
  | nil =>
    simp only [List.nil_append, SetAll, Option.some_bind]
    cases Set fuel m c.key c.value c.exp c.now <;> rfl
  | cons a t ih =>
    simp only [List.cons_append, SetAll]
    cases Set fuel m a.key a.value a.exp a.now with
    | none => rfl
    | some m1 => exact ih m1

theorem totalBytes_cons (c : SetCall) (l : List SetCall) :
    totalBytes (c :: l) = c.value.length + totalBytes l := by
  simp [totalBytes]

theorem storedBytes_of_entries {m : memcache} {l : List SetCall}
    (h : entries m = l.map SetCall.item) : storedBytes m = totalBytes l := by
  simp [storedBytes, h, totalBytes, List.map_map, Function.comp_def, SetCall.item]

theorem Evicted.entries_eq_take {d : Nat} {m0 m : memcache} (h : Evicted d m0 m) :
    entries m = (entries m0).take m.list.length := by
  unfold entries
  rw [h.elems_eq, ← List.map_take, ← List.prefix_iff_eq_take.1 h.list_prefix]

theorem bytesOf_take_of_entries {m : memcache} {l : List SetCall}
    (h : entries m = l.map SetCall.item) (k : Nat) :
    bytesOf m.elems (m.list.take k) = totalBytes (l.take k) := by
  have : (m.list.take k).map m.elems = (l.take k).map SetCall.item := by
    rw [List.map_take, List.map_take]
    exact congrArg (List.take k) h
  have h2 := congrArg (fun x : List cachedItem => (x.map fun i => i.payload.length).sum) this
  simpa [bytesOf, totalBytes, List.map_map, Function.comp_def, SetCall.item] using h2

theorem Keeps.init (N B : Nat) :
    Keeps N B [] (NewMemCache [MaxItemLimit N, MaxBytesLimit B]) 0 :=
  ⟨Inv_NewMemCache _ (by simp), rfl, rfl, rfl, Nat.le_refl _, rfl, Nat.zero_le _,
    Nat.zero_le _, fun n' h1 h2 => by simp at h2; omega⟩

theorem Keeps.after_Set {N B : Nat} {cs : List SetCall} {m : memcache} {n : Nat}
    (h : Keeps N B cs m n) {c : SetCall} (hc : c.key ∉ cs.map fun c => c.key)
    (hw : totalBytes (cs.reverse.take n) + c.value.length < uintSize) (fuel : Nat)
    (hf : cs.length + 2 ≤ fuel) :
    ∃ m' n', Set fuel m c.key c.value c.exp c.now = some m' ∧ Keeps N B (cs ++ [c]) m' n' := by
  have hlen : m.list.length = n := by
    have := congrArg List.length h.entries_eq
    simpa [entries, h.le_length] using this
  have hnew : m.items.lookup c.key = none := by
    apply AList.lookup_eq_none.2
    intro hmem
    obtain ⟨i, hi, hik⟩ := (h.inv.consistent.key_iff c.key).1 hmem
    rw [h.entries_eq] at hi
    obtain ⟨c', hc', rfl⟩ := List.mem_map.1 hi
    apply hc
    exact List.mem_map.2 ⟨c', List.mem_reverse.1 (List.mem_of_mem_take hc'), hik⟩
  have hsb : storedBytes m = totalBytes (cs.reverse.take n) :=
    storedBytes_of_entries h.entries_eq
  have hexact0 : m.currentBytes = 0 + storedBytes m := by rw [h.exact]; omega
  have hbl := h.bytes_le
  have hw' : m.currentBytes + c.value.length < uintSize := by
    rw [h.exact, hsb]
    exact hw
  obtain ⟨m', hr⟩ := Set_returns h.inv hexact0 (Nat.zero_le _) c.key hw' c.exp c.now
    fuel (by have := h.le_length; omega)
  obtain ⟨hev, hno⟩ := Set_new_evicted h.inv hnew hexact0 hw' hr
  have hrev : (cs ++ [c]).reverse = c :: cs.reverse := by simp
  have hPent : entries (pushed m c.key c.value c.exp c.now) =
      ((c :: cs.reverse).take (n + 1)).map SetCall.item := by
    rw [entries_pushed, h.entries_eq]
    rfl
  have hPlen : (pushed m c.key c.value c.exp c.now).list.length = n + 1 := by
    show (fresh m :: m.list).length = n + 1
    simp [hlen]
  have hn' : m'.list.length ≤ n + 1 := hPlen ▸ hev.list_prefix.length_le
  have hent' : entries m' = ((c :: cs.reverse).take m'.list.length).map SetCall.item := by
    rw [hev.entries_eq_take, hPent, ← List.map_take, List.take_take, Nat.min_eq_left hn']
  have hexact' : m'.currentBytes = storedBytes m' := by
    rw [hev.bytes_eq, storedBytes_eq, hev.elems_eq]
    omega
  have hover : ¬ (m'.list.length > N ∨ m'.currentBytes > B) := by
    have := hno
    unfold overLimit at this
    rw [hev.maxItems_eq, hev.maxBytes_eq] at this
    exact fun hh => this (by
      show m'.list.length > m.maxItems ∨ m'.currentBytes > m.maxBytes
      rw [h.maxItems_eq, h.maxBytes_eq]
      exact hh)
  refine ⟨m', m'.list.length, hr, ?_⟩
  refine ⟨hev.inv, ?_, ?_, hexact', ?_, ?_, ?_, ?_, ?_⟩
  · rw [hev.maxItems_eq]; exact h.maxItems_eq
  · rw [hev.maxBytes_eq]; exact h.maxBytes_eq
  · have := h.le_length
    simp
    omega
  · rw [hrev]; exact hent'
  · omega
  · rw [hrev, ← storedBytes_of_entries hent', ← hexact']
    omega
  · intro k hk1 hk2
    rw [hrev]
    by_cases hkn : k ≤ n + 1
    · have hp : (pushed m c.key c.value c.exp c.now).list.take k <+:
          (pushed m c.key c.value c.exp c.now).list := List.take_prefix _ _
      have hpl : ((pushed m c.key c.value c.exp c.now).list.take k).length = k := by
        rw [List.length_take, hPlen]
        omega
      have := hev.longer_over _ hp (by rw [hpl]; exact hk1)
      rw [hpl, bytesOf_take_of_entries hPent k, List.take_take, Nat.min_eq_left hkn] at this
      have h1 : (pushed m c.key c.value c.exp c.now).maxItems = N := h.maxItems_eq
      have h2 : (pushed m c.key c.value c.exp c.now).maxBytes = B := h.maxBytes_eq
      rw [h1, h2] at this
      omega
    · obtain ⟨k0, rfl⟩ : ∃ k0, k = k0 + 1 := ⟨k - 1, by omega⟩
      have hk0 : k0 ≤ cs.length := by simpa using hk2
      rw [List.take_succ_cons, totalBytes_cons]
      rcases h.maximal k0 (by omega) hk0 with h3 | h3
      · left; omega
      · right; omega

theorem totalBytes_append (l₁ l₂ : List SetCall) :
    totalBytes (l₁ ++ l₂) = totalBytes l₁ + totalBytes l₂ := by
  simp [totalBytes]

theorem totalBytes_reverse (l : List SetCall) : totalBytes l.reverse = totalBytes l := by
  simp [totalBytes, List.sum_reverse]

theorem totalBytes_take_le (l : List SetCall) (n : Nat) :
    totalBytes (l.take n) ≤ totalBytes l := by
  conv_rhs => rw [← List.take_append_drop n l]
  rw [totalBytes_append]
  omega

/-- After any calls of `Set` with pairwise distinct keys on a new cache with the
limits `N` and `B`, the cache keeps the largest number of latest calls that fits
both limits. -/
theorem SetAll_keeps (N B : Nat) (calls : List SetCall)
    (hk : (calls.map fun c => c.key).Nodup)
    (hw : (∀ c ∈ calls, B + c.value.length < uintSize) ∨ totalBytes calls < uintSize)
    (fuel : Nat) (hf : calls.length + 2 ≤ fuel) :
    ∃ m' n, SetAll fuel (NewMemCache [MaxItemLimit N, MaxBytesLimit B]) calls = some m' ∧
      Keeps N B calls m' n := by
  induction calls using List.reverseRecOn with
  | nil => exact ⟨_, 0, rfl, Keeps.init N B⟩
  | append_singleton cs c ih =>
    rw [List.map_append, List.nodup_append] at hk
    obtain ⟨hk1, _, hk3⟩ := hk
    have hlen : (cs ++ [c]).length = cs.length + 1 := by simp
    have htb : totalBytes (cs ++ [c]) = totalBytes cs + c.value.length := by
      rw [totalBytes_append]
      simp [totalBytes]
    have hw1 : (∀ c ∈ cs, B + c.value.length < uintSize) ∨ totalBytes cs < uintSize := by
      rcases hw with hw | hw
      · exact Or.inl fun c' hc' => hw c' (List.mem_append_left _ hc')
      · exact Or.inr (by omega)
    obtain ⟨m1, n1, hr1, hkeep⟩ := ih hk1 hw1 (by omega)
    have hc : c.key ∉ cs.map fun c => c.key := fun hmem =>
      hk3 hmem (by simp)
    have hwc : totalBytes (cs.reverse.take n1) + c.value.length < uintSize := by
      rcases hw with hw | hw
      · have := hw c (List.mem_append_right _ (List.mem_singleton_self c))
        have := hkeep.bytes_le
        omega
      · have := totalBytes_take_le cs.reverse n1
        rw [totalBytes_reverse] at this
        omega
    obtain ⟨m', n', hr, hkeep'⟩ := hkeep.after_Set (c := c) hc hwc fuel (by omega)
    exact ⟨m', n', by rw [SetAll_append, hr1]; exact hr, hkeep'⟩

/-! ## Delete, Fetch and construction -/

theorem Delete_of_none {m : memcache} {key : String} (h : m.items.lookup key = none) :
    Delete m key = m := by
  unfold Delete
  rw [h]

theorem Delete_of_some {m : memcache} {key : String} {e : Nat}
    (h : m.items.lookup key = some e) :
    Delete m key = { m with items := m.items.erase key, list := Remove m.list e } := by
  unfold Delete
  rw [h]

theorem currentBytes_Delete (m : memcache) (key : String) :
    (Delete m key).currentBytes = m.currentBytes := by
  unfold Delete
  split <;> rfl

theorem currentBytes_Fetch (m : memcache) (key : String) (now : Int) :
    (Fetch m key now).1.currentBytes = m.currentBytes := by
  unfold Fetch
  split
  · rfl
  · dsimp only
    split <;> rfl

theorem Fetch_of_expired {m : memcache} {key : String} {e : Nat}
    (h : m.items.lookup key = some e) {now : Int} (hx : (m.elems e).expireAt < now) :
    Fetch m key now =
      ({ m with list := Remove m.list e, items := m.items.erase (m.elems e).key },
        .error .ErrNotFound) := by
  unfold Fetch
  rw [h]
  simp [hx]

theorem Fetch_of_live {m : memcache} {key : String} {e : Nat}
    (h : m.items.lookup key = some e) {now : Int} (hx : ¬ (m.elems e).expireAt < now) :
    Fetch m key now =
      ({ m with list := MoveToFront m.list e }, .ok (m.elems e).payload) := by
  unfold Fetch
  rw [h]
  simp [hx]

theorem maxItems_foldl_MaxBytesLimit (bs : List Nat) (m : memcache) :
    ((bs.map MaxBytesLimit).foldl (fun m o => o m) m).maxItems = m.maxItems := by
  induction bs generalizing m with
  | nil => rfl
  | cons b t ih =>
    simp only [List.map_cons, List.foldl_cons]
    rw [ih]
    rfl

theorem maxBytes_foldl_MaxItemLimit (ns : List Nat) (m : memcache) :
    ((ns.map MaxItemLimit).foldl (fun m o => o m) m).maxBytes = m.maxBytes := by
  induction ns generalizing m with
  | nil => rfl
  | cons n t ih =>
    simp only [List.map_cons, List.foldl_cons]
    rw [ih]
    rfl

/-! ## Removing an entry -/

theorem Delete_removed {m : memcache} (hinv : Inv m) {k : String} {e : Nat}
    (h : m.items.lookup k = some e) : Removed m k e (Delete m k) := by
  obtain ⟨hmem, hkey⟩ := hinv.index_sound k e h
  have hinv' : Inv (Delete m k) := Inv_Delete hinv k
  rw [Delete_of_some h] at hinv' ⊢
  have hlist : Remove m.list e = m.list.filter fun q => decide (q ≠ e) := by
    unfold Remove
    rw [hinv.nodup.erase_eq_filter]
    apply List.filter_congr
    intro q _
    by_cases hq : q = e <;> simp [hq]
  have hkeyiff : ∀ q ∈ m.list, ((m.elems q).key ≠ k ↔ q ≠ e) := by
    intro q hq
    constructor
    · intro hne hqe
      exact hne (hqe ▸ hkey)
    · intro hne hk
      exact hne (hinv.key_inj hq hmem (hk.trans hkey.symm))
  have hent : (Remove m.list e).map m.elems =
      (entries m).filter fun i => decide (i.key ≠ k) := by
    rw [hlist]
    unfold entries
    rw [List.filter_map]
    congr 1
    apply List.filter_congr
    intro q hq
    simp only [Function.comp_apply]
    exact decide_eq_decide.2 (hkeyiff q hq).symm
  refine ⟨AList.lookup_erase _ _, ⟨?_, ?_⟩, ?_, ?_, hlist, hent, ?_, rfl, ⟨rfl, rfl⟩⟩
  · show e ∉ Remove m.list e
    rw [hlist]
    simp
  · intro i hi
    have hi : i ∈ (Remove m.list e).map m.elems := hi
    rw [hent] at hi
    simpa using (List.mem_filter.1 hi).2
  · show (Remove m.list e).length + 1 = m.list.length
    unfold Remove
    rw [List.length_erase_of_mem hmem]
    have := List.length_pos_of_mem hmem
    omega
  · have h1 := hinv.consistent.length_eq
    have h2 := hinv'.consistent.length_eq
    have h3 : (Remove m.list e).length + 1 = m.list.length := by
      unfold Remove
      rw [List.length_erase_of_mem hmem]
      have := List.length_pos_of_mem hmem
      omega
    have h2 : (Remove m.list e).length = indexSize
        { m with items := m.items.erase k, list := Remove m.list e } := h2
    omega
  · intro k' hk'
    exact AList.lookup_erase_ne hk'

theorem Fetch_expired_eq_Delete {m : memcache} (hinv : Inv m) {k : String} {e : Nat}
    (h : m.items.lookup k = some e) {now : Int} (hx : (m.elems e).expireAt < now) :
    (Fetch m k now).1 = Delete m k := by
  rw [Fetch_of_expired h hx, Delete_of_some h, (hinv.index_sound k e h).2]

/-! ## Eviction of the tail by Set on a full cache -/

theorem Set_new_evicts_tail {m : memcache} (hinv : Inv m) {rest : List Nat} {b : Nat}
    (hl : m.list = rest ++ [b]) (hfull : m.list.length = m.maxItems) {key : String}
    (hnew : m.items.lookup key = none) {value : List UInt8}
    (hfit : m.currentBytes + value.length ≤ m.maxBytes) (hmax : m.maxBytes < uintSize)
    (hb : (m.elems b).payload.length ≤ m.currentBytes + value.length) (exp now : Int)
    {fuel : Nat} (hf : 2 ≤ fuel) :
    ∃ m', Set fuel m key value exp now = some m' ∧ m'.list = fresh m :: rest ∧
      m'.items = (m.items.insert key (fresh m)).erase (m.elems b).key ∧
      m'.elems = store m.elems (fresh m) ⟨key, value, now + exp⟩ := by
  obtain ⟨n, rfl⟩ : ∃ n, fuel = n + 2 := ⟨fuel - 2, by omega⟩
  have hbmem : b ∈ m.list := by rw [hl]; simp
  have hnd : (rest ++ [b]).Nodup := hl ▸ hinv.nodup
  have hbrest : b ∉ rest := fun hmem =>
    (List.nodup_append.1 hnd).2.2 hmem (List.mem_singleton_self b)
  have hbf : b ≠ fresh m := fun hbf => fresh_not_mem m (hbf ▸ hbmem)
  have hPl : (pushed m key value exp now).list = (fresh m :: rest) ++ [b] := by
    show fresh m :: m.list = _
    rw [hl]
    rfl
  have hPb : b ∉ fresh m :: rest := by
    simp [hbf, hbrest]
  have hPe : (pushed m key value exp now).elems b = m.elems b :=
    elems_pushed_of_mem hbmem key value exp now
  have hPc : (pushed m key value exp now).currentBytes = m.currentBytes + value.length :=
    uadd_eq (by omega)
  have hover : overLimit (pushed m key value exp now) := by
    left
    show (pushed m key value exp now).list.length > m.maxItems
    rw [hPl, ← hfull, hl]
    simp
  have hstep := evictStep_of_append hPl hPb
  rw [hPe, hPc] at hstep
  have hlen : rest.length + 1 = m.maxItems := by
    rw [← hfull, hl]
    simp
  have hnot : ¬ overLimit (evictStep (pushed m key value exp now)) := by
    rw [hstep]
    unfold overLimit
    simp only [List.length_cons, gt_iff_lt, not_or, not_lt]
    constructor
    · show rest.length + 1 ≤ m.maxItems
      omega
    · show usub (m.currentBytes + value.length) (m.elems b).payload.length ≤ m.maxBytes
      rw [usub_eq hb (by omega)]
      omega
  refine ⟨evictStep (pushed m key value exp now), ?_, ?_, ?_, ?_⟩
  · rw [Set_of_lookup_none hnew]
    unfold evictLoop
    rw [if_pos hover]
    unfold evictLoop
    rw [if_neg hnot]
  · rw [hstep]
  · rw [hstep]
    rfl
  · rw [hstep]
    rfl

theorem payload_le_storedBytes {m : memcache} {e : Nat} (he : e ∈ m.list) :
    (m.elems e).payload.length ≤ storedBytes m := by
  rw [storedBytes_eq]
  unfold bytesOf
  exact List.single_le_sum (fun _ _ => Nat.zero_le _) _
    (List.mem_map.2 ⟨e, he, rfl⟩)

theorem reachable_twoCache : Reachable twoCache :=
  Reachable.setAll (Reachable.init _ (by simp)) (some_getD_of_isSome (by decide) _)

/-! ## The byte counter does not under-count -/

theorem bytesOf_cons (elems : Nat → cachedItem) (e : Nat) (l : List Nat) :
    bytesOf elems (e :: l) = (elems e).payload.length + bytesOf elems l := by
  simp [bytesOf]

theorem bytesOf_perm (elems : Nat → cachedItem) {l l' : List Nat} (h : l.Perm l') :
    bytesOf elems l = bytesOf elems l' :=
  (h.map _).sum_eq

theorem bytesOf_erase {elems : Nat → cachedItem} {l : List Nat} {e : Nat} (h : e ∈ l) :
    bytesOf elems l = (elems e).payload.length + bytesOf elems (l.erase e) := by
  rw [bytesOf_perm elems (List.perm_cons_erase h), bytesOf_cons]

theorem bytesOf_erase_le (elems : Nat → cachedItem) (l : List Nat) (e : Nat) :
    bytesOf elems (l.erase e) ≤ bytesOf elems l := by
  by_cases h : e ∈ l
  · rw [bytesOf_erase h]
    omega
  · rw [List.erase_of_not_mem h]

theorem Counted_NewMemCache (opts : List cacheOption)
    (h : ∀ o ∈ opts, (∃ l, o = MaxItemLimit l) ∨ (∃ b, o = MaxBytesLimit b)) :
    Counted (NewMemCache opts) := by
  obtain ⟨h1, _, h3⟩ := NewMemCache_fields opts h
  refine ⟨Inv_NewMemCache opts h, ?_, ?_⟩
  · rw [storedBytes_eq, h1, h3]
    simp [bytesOf]
  · rw [h3]
    unfold uintSize
    positivity

theorem Counted_Delete {m : memcache} (h : Counted m) (key : String) :
    Counted (Delete m key) := by
  refine ⟨Inv_Delete h.inv key, ?_, ?_⟩
  · rw [currentBytes_Delete]
    refine le_trans ?_ h.stored_le
    rw [storedBytes_eq, storedBytes_eq]
    cases hl : m.items.lookup key with
    | none => rw [Delete_of_none hl]
    | some e =>
      rw [Delete_of_some hl]
      exact bytesOf_erase_le _ _ _
  · rw [currentBytes_Delete]
    exact h.bytes_lt

theorem Counted_Fetch {m : memcache} (h : Counted m) (key : String) (now : Int) :
    Counted (Fetch m key now).1 := by
  refine ⟨Inv_Fetch h.inv key now, ?_, ?_⟩
  · cases hl : m.items.lookup key with
    | none =>
      rw [Fetch_of_none hl]
      exact h.stored_le
    | some e =>
      by_cases hx : (m.elems e).expireAt < now
      · rw [Fetch_of_expired hl hx]
        refine le_trans ?_ h.stored_le
        rw [storedBytes_eq, storedBytes_eq]
        exact bytesOf_erase_le _ _ _
      · rw [Fetch_of_live hl hx]
        refine le_trans (le_of_eq ?_) h.stored_le
        rw [storedBytes_eq, storedBytes_eq]
        exact bytesOf_perm _ (MoveToFront_perm _ _)
  · rw [currentBytes_Fetch]
    exact h.bytes_lt

theorem Counted_evictStep {m : memcache} (h : Counted m) : Counted (evictStep m) := by
  rcases List.eq_nil_or_concat m.list with hnil | ⟨l, a, hl⟩
  · rw [evictStep_of_nil hnil]
    exact h
  · rw [List.concat_eq_append] at hl
    have hnd : (l ++ [a]).Nodup := hl ▸ h.inv.nodup
    have ha : a ∉ l := fun hmem =>
      (List.nodup_append.1 hnd).2.2 hmem (List.mem_singleton_self a)
    have hs := h.stored_le
    rw [storedBytes_eq, hl, bytesOf_append, bytesOf_cons] at hs
    have hi := Inv_evictStep h.inv
    rw [evictStep_of_append hl ha] at hi ⊢
    refine ⟨hi, ?_, usub_lt _ _⟩
    show storedBytes _ ≤ usub m.currentBytes (m.elems a).payload.length
    rw [usub_eq (by omega) h.bytes_lt, storedBytes_eq]
    show bytesOf m.elems l ≤ _
    simp [bytesOf] at hs ⊢
    omega

theorem Counted_pushed {m : memcache} (h : Counted m) {key : String}
    (hl : m.items.lookup key = none) {value : List UInt8}
    (hw : m.currentBytes + value.length < uintSize) (exp now : Int) :
    Counted (pushed m key value exp now) := by
  refine ⟨Inv_pushed h.inv hl value exp now, ?_, uadd_lt _ _⟩
  rw [storedBytes_eq, bytesOf_pushed]
  show _ ≤ uadd m.currentBytes value.length
  rw [uadd_eq hw]
  have := h.stored_le
  omega

theorem Counted_iterate {m : memcache} (h : Counted m) (i : Nat) :
    Counted (evictStep^[i] m) := by
  induction i with
  | zero => exact h
  | succ n ih =>
    rw [Function.iterate_succ_apply']
    exact Counted_evictStep ih

theorem Counted_evictLoop {fuel : Nat} {m m' : memcache} (h : Counted m)
    (hr : evictLoop fuel m = some m') : Counted m' := by
  induction fuel generalizing m with
  | zero => simp [evictLoop] at hr
  | succ n ih =>
    unfold evictLoop at hr
    split at hr
    · exact ih (Counted_evictStep h) hr
    · cases hr
      exact h

theorem Counted_Set {fuel : Nat} {m m' : memcache} (h : Counted m) {key : String}
    {value : List UInt8} {exp now : Int} (hfit : addFits m key value)
    (hr : Set fuel m key value exp now = some m') : Counted m' := by
  have hinv' := Inv_Set h.inv hr
  unfold addFits at hfit
  cases hl : m.items.lookup key with
  | none =>
    rw [hl] at hfit
    rw [Set_of_lookup_none hl] at hr
    exact Counted_evictLoop (Counted_pushed h hl hfit exp now) hr
  | some e =>
    rw [hl] at hfit
    rw [Set_of_lookup_some hl] at hr
    cases hr
    have hmem := (h.inv.index_sound key e hl).1
    have hs := h.stored_le
    rw [storedBytes_eq, bytesOf_erase hmem] at hs
    have hsub : usub m.currentBytes (m.elems e).payload.length =
        m.currentBytes - (m.elems e).payload.length := usub_eq (by omega) h.bytes_lt
    simp only [] at hfit
    rw [hsub] at hfit
    refine ⟨hinv', ?_, uadd_lt _ _⟩
    show storedBytes _ ≤ uadd (usub m.currentBytes (m.elems e).payload.length) value.length
    rw [hsub, uadd_eq hfit, storedBytes_eq]
    show bytesOf (store m.elems e _) (MoveToFront m.list e) ≤ _
    rw [bytesOf_perm _ (MoveToFront_perm _ _), bytesOf_erase hmem]
    have hrest : bytesOf (store m.elems e ⟨(m.elems e).key, value, now + exp⟩) (m.list.erase e) =
        bytesOf m.elems (m.list.erase e) := by
      apply bytesOf_congr
      intro q hq
      have : q ≠ e := fun hqe => (h.inv.nodup.mem_erase_iff.1 hq).1 hqe
      simp [store, this]
    rw [hrest]
    simp [store]
    omega

theorem ReachableFits.counted {m : memcache} (h : ReachableFits m) : Counted m := by
  induction h with
  | init opts h => exact Counted_NewMemCache opts h
  | fetch key now _ ih => exact Counted_Fetch ih key now
  | set fuel key value exp now _ hfit hr ih => exact Counted_Set ih hfit hr
  | delete key _ ih => exact Counted_Delete ih key

theorem ReachableFits.reachable {m : memcache} (h : ReachableFits m) : Reachable m := by
  induction h with
  | init opts h => exact Reachable.init opts h
  | fetch key now _ ih => exact Reachable.fetch key now ih
  | set fuel key value exp now _ _ hr ih => exact Reachable.set fuel key value exp now ih hr
  | delete key _ ih => exact Reachable.delete key ih

theorem Counted.payload_le {m : memcache} (h : Counted m) {e : Nat} (he : e ∈ m.list) :
    (m.elems e).payload.length ≤ m.currentBytes :=
  le_trans (payload_le_storedBytes he) h.stored_le

/-! ## Expiry -/

/-- Past the expiry: in every cache state, whenever `Set(k, p, ttl)` at time `t` has
returned, `Fetch(k)` at any time `t' > t + ttl` returns `ErrNotFound`.  `Set` does
return, within the list length plus two evaluations of the loop condition, in every
consistent state whose `currentBytes` equals the stored payload bytes and does not
overflow when the payload length is added. -/
theorem Set_Fetch_expired (m : memcache) (k : String) (p : List UInt8) (ttl t t' : Int)
    (ht : t + ttl < t') :
    (∀ fuel m', Set fuel m k p ttl t = some m' →
      (Fetch m' k t').2 = .error .ErrNotFound) ∧
    (Inv m → m.currentBytes = storedBytes m → m.currentBytes + p.length < uintSize →
      ∀ fuel, m.list.length + 2 ≤ fuel → ∃ m', Set fuel m k p ttl t = some m') := by
  constructor
  · intro fuel m' hr
    rcases Set_lookup hr with h | ⟨e, he, _, hx⟩
    · rw [Fetch_of_none h]
    · exact Fetch_result_of_expired he (by rw [hx]; exact ht)
  · intro hinv hexact hw fuel hf
    exact Set_returns hinv (d := 0) (by omega) (Nat.zero_le _) k hw ttl t fuel hf

theorem Set_Fetch_expired_witness :
    ∃ m', Set 2 (NewMemCache [MaxItemLimit 10]) "greeting" testData 0 0 = some m' ∧
      (Fetch m' "greeting" 1).2 = .error .ErrNotFound := by
  have h := Set_Fetch_expired (NewMemCache [MaxItemLimit 10]) "greeting" testData 0 0 1
    (by decide)
  obtain ⟨m', hr⟩ := h.2 (Inv_NewMemCache _ (by simp)) (by decide) (by decide) 2 (by decide)
  exact ⟨m', hr, h.1 2 m' hr⟩

/-! ## The limits that are never reached -/

theorem length_of_Keeps {N B : Nat} {calls : List SetCall} {m : memcache} {n : Nat}
    (h : Keeps N B calls m n) : m.list.length = n := by
  have := congrArg List.length h.entries_eq
  simpa [entries, h.le_length] using this

/-- When the item limit is never reached, that is when before every call the list
holds fewer than `N` items, every suffix of the calls that fits in `B` bytes has at
most `N` calls. -/
theorem fits_le_of_never_full (N B : Nat) (calls : List SetCall)
    (hk : (calls.map fun c => c.key).Nodup)
    (hw : (∀ c ∈ calls, B + c.value.length < uintSize) ∨ totalBytes calls < uintSize)
    (hnever : ∀ cs c rest, calls = cs ++ c :: rest → ∀ fuel m,
      SetAll fuel (NewMemCache [MaxItemLimit N, MaxBytesLimit B]) cs = some m →
      m.list.length < N) :
    ∀ j, totalBytes (calls.drop j) ≤ B → calls.length - j ≤ N := by
  intro j hj
  by_contra hcon
  have hi : j + N < calls.length := by omega
  have hlen : (calls.take (j + N)).length = j + N := by
    rw [List.length_take]
    omega
  obtain ⟨c, rest, hcr⟩ : ∃ c rest, calls.drop (j + N) = c :: rest := by
    cases h : calls.drop (j + N) with
    | nil =>
      have := congrArg List.length h
      simp at this
      omega
    | cons c rest => exact ⟨c, rest, rfl⟩
  have hsplit : calls = calls.take (j + N) ++ c :: rest := by
    rw [← hcr, List.take_append_drop]
  have hk' : ((calls.take (j + N)).map fun c => c.key).Nodup :=
    hk.sublist ((List.take_sublist (j + N) calls).map _)
  have hw' : (∀ c ∈ calls.take (j + N), B + c.value.length < uintSize) ∨
      totalBytes (calls.take (j + N)) < uintSize := by
    rcases hw with hw | hw
    · exact Or.inl fun c hc => hw c (List.mem_of_mem_take hc)
    · exact Or.inr (lt_of_le_of_lt (totalBytes_take_le _ _) hw)
  obtain ⟨m, n, hr, hkeep⟩ := SetAll_keeps N B (calls.take (j + N)) hk' hw' (j + N + 2)
    (by omega)
  have hn : n < N := by
    rw [← length_of_Keeps hkeep]
    exact hnever _ c rest hsplit _ m hr
  rcases hkeep.maximal N hn (by omega) with h | h
  · omega
  · rw [List.take_reverse, totalBytes_reverse, hlen, List.drop_take] at h
    have := totalBytes_take_le (calls.drop (j + N - N)) (j + N - (j + N - N))
    have hjn : j + N - N = j := by omega
    rw [hjn] at this h
    omega

/-- When the byte limit is never reached, that is when at every call the counter
plus the length of the new payload stays within `B`, the cache keeps as many of the
latest calls as the item limit allows. -/
theorem Keeps_min_of_never_over (N B : Nat) (calls : List SetCall)
    (hk : (calls.map fun c => c.key).Nodup)
    (hw : (∀ c ∈ calls, B + c.value.length < uintSize) ∨ totalBytes calls < uintSize)
    (hnever : ∀ cs c rest, calls = cs ++ c :: rest → ∀ fuel m,
      SetAll fuel (NewMemCache [MaxItemLimit N, MaxBytesLimit B]) cs = some m →
      m.currentBytes + c.value.length ≤ B) :
    ∀ m n, Keeps N B calls m n → n = min N calls.length := by
  induction calls using List.reverseRecOn with
  | nil =>
    intro m n h
    have := h.le_length
    simp at this
    simp [this]
  | append_singleton cs c ih =>
    intro m' n' hkeep'
    rw [List.map_append, List.nodup_append] at hk
    have htb : totalBytes (cs ++ [c]) = totalBytes cs + c.value.length := by
      rw [totalBytes_append]
      simp [totalBytes]
    have hw1 : (∀ c ∈ cs, B + c.value.length < uintSize) ∨ totalBytes cs < uintSize := by
      rcases hw with hw | hw
      · exact Or.inl fun c' hc' => hw c' (List.mem_append_left _ hc')
      · exact Or.inr (by omega)
    obtain ⟨m1, n1, hr1, hkeep1⟩ := SetAll_keeps N B cs hk.1 hw1 (cs.length + 2) (le_refl _)
    have hn1 : n1 = min N cs.length :=
      ih hk.1 hw1 (fun cs' c' rest' h fuel m hr =>
        hnever cs' c' (rest' ++ [c]) (by rw [h]; simp) fuel m hr) m1 n1 hkeep1
    have hfit := hnever cs c [] rfl _ m1 hr1
    rw [hkeep1.exact, storedBytes_of_entries hkeep1.entries_eq] at hfit
    have hlen : (cs ++ [c]).length = cs.length + 1 := by simp
    have h1 := hkeep'.count_le
    have h2 := hkeep'.le_length
    rw [hlen] at h2 ⊢
    by_contra hne
    have hlt : n' < N ∧ n' < cs.length + 1 := by
      constructor
      · by_contra hN
        have : n' = N := by omega
        rw [this] at hne
        exact hne (by omega)
      · by_contra hL
        have : n' = cs.length + 1 := by omega
        rw [this] at hne
        exact hne (by omega)
    rcases hkeep'.maximal (n' + 1) (by omega) (by rw [hlen]; omega) with h | h
    · omega
    · have hrev : (cs ++ [c]).reverse = c :: cs.reverse := by simp
      rw [hrev, List.take_succ_cons, totalBytes_cons] at h
      have h3 : cs.reverse.take n' = (cs.reverse.take n1).take n' := by
        rw [List.take_take, Nat.min_eq_left (by omega)]
      have h4 := totalBytes_take_le (cs.reverse.take n1) n'
      rw [← h3] at h4
      omega

/-- When the byte limit is never reached, the payloads of the `N` latest of `N + M`
calls together are no longer than `B`. -/
theorem fits_of_never_over (N M B : Nat) (calls : List SetCall)
    (hlen : calls.length = N + M) (hk : (calls.map fun c => c.key).Nodup)
    (hw : (∀ c ∈ calls, B + c.value.length < uintSize) ∨ totalBytes calls < uintSize)
    (hnever : ∀ cs c rest, calls = cs ++ c :: rest → ∀ fuel m,
      SetAll fuel (NewMemCache [MaxItemLimit N, MaxBytesLimit B]) cs = some m →
      m.currentBytes + c.value.length ≤ B) :
    totalBytes (calls.drop M) ≤ B := by
  obtain ⟨m, n, _, hkeep⟩ := SetAll_keeps N B calls hk hw (calls.length + 2) (le_refl _)
  have hn := Keeps_min_of_never_over N B calls hk hw hnever m n hkeep
  have hb := hkeep.bytes_le
  rw [hn, List.take_reverse, totalBytes_reverse] at hb
  have : calls.length - min N calls.length = M := by
    rw [hlen]
    omega
  rw [this] at hb
  exact hb

/-! ## The claims -/

/-- C1, as stated, fails: on a new cache with `MaxBytesLimit(8)`, `Set("a", p, 1s)`
with a payload of 9 bytes returns, and `Fetch("a")` at the same instant reports
`ErrNotFound`: the eviction loop has removed the entry that was just stored. -/
theorem roundtrip_counterexample :
    Reachable (NewMemCache [MaxBytesLimit 8]) ∧
      (Set 2 (NewMemCache [MaxBytesLimit 8]) "a" [1, 2, 3, 4, 5, 6, 7, 8, 9] defaultExp 0).map
        (fun m => (Fetch m "a" 0).2) = some (.error .ErrNotFound) :=
  ⟨Reachable.init _ (by simp), by decide⟩

/-- C1, amended: in a reachable state, `Set(k, p, ttl)` at time `t` returns and a
following `Fetch(k)` at any time `t' ≤ t + ttl` returns exactly `p` without error,
provided that, when `k` is not stored yet, `maxItems ≥ 1`, the payload is no
longer than `maxBytes`, and `currentBytes` equals the stored payload bytes and
does not overflow when the payload length is added. -/
theorem Set_Fetch_roundtrip (m : memcache) (hreach : Reachable m) (k : String)
    (p : List UInt8) (ttl t t' : Int) (ht : t' ≤ t + ttl)
    (hnew : m.items.lookup k = none →
      1 ≤ m.maxItems ∧ p.length ≤ m.maxBytes ∧ m.currentBytes = storedBytes m ∧
        m.currentBytes + p.length < uintSize)
    (fuel : Nat) (hf : m.list.length + 2 ≤ fuel) :
    ∃ m', Set fuel m k p ttl t = some m' ∧ (Fetch m' k t').2 = .ok p := by
  cases hl : m.items.lookup k with
  | some element =>
    have hs : ∃ m', Set fuel m k p ttl t = some m' := by
      unfold Set
      rw [hl]
      exact ⟨_, rfl⟩
    obtain ⟨m', hr⟩ := hs
    refine ⟨m', hr, ?_⟩
    rcases Set_lookup hr with h | ⟨e, he, hp, hx⟩
    · unfold Set at hr
      rw [hl] at hr
      cases hr
      rw [hl] at h
      cases h
    · rw [Fetch_result_of_live he (by rw [hx]; omega), hp]
  | none =>
    obtain ⟨hi, hb, hexact, hw⟩ := hnew hl
    have hexact0 : m.currentBytes = 0 + storedBytes m := by omega
    obtain ⟨m', hr⟩ := Set_returns hreach.inv hexact0 (Nat.zero_le _) k hw ttl t fuel hf
    refine ⟨m', hr, ?_⟩
    obtain ⟨hev, _⟩ := Set_new_evicted hreach.inv hl hexact0 hw hr
    have hne : m'.list ≠ [] := by
      intro hnil
      have hp1 : [fresh m] <+: (pushed m k p ttl t).list :=
        ⟨m.list, rfl⟩
      have := hev.longer_over [fresh m] hp1 (by rw [hnil]; simp)
      have hbytes : bytesOf (pushed m k p ttl t).elems [fresh m] = p.length := by
        simp [bytesOf, elems_pushed_fresh]
      rw [hbytes] at this
      have h1 : (pushed m k p ttl t).maxItems = m.maxItems := rfl
      have h2 : (pushed m k p ttl t).maxBytes = m.maxBytes := rfl
      rw [h1, h2] at this
      simp at this
      omega
    have hmem : fresh m ∈ m'.list := by
      obtain ⟨r, hr2⟩ := hev.list_prefix
      cases hm : m'.list with
      | nil => exact absurd hm hne
      | cons a l =>
        rw [hm] at hr2
        have : a = fresh m := by
          have := List.head_eq_of_cons_eq hr2
          exact this
        rw [this]
        exact List.mem_cons_self _ _
    have hlk := hev.inv.list_indexed _ hmem
    rw [hev.elems_eq, elems_pushed_fresh] at hlk
    have hlk : m'.items.lookup k = some (fresh m) := hlk
    have hel : m'.elems (fresh m) = ⟨k, p, t + ttl⟩ := by
      rw [hev.elems_eq, elems_pushed_fresh]
    rw [Fetch_result_of_live hlk (by rw [hel]; simp; omega), hel]

theorem Set_Fetch_roundtrip_witness :
    ∃ m', Set 2 (NewMemCache [MaxItemLimit 10]) "greeting" testData defaultExp 0 = some m' ∧
      (Fetch m' "greeting" 5).2 = .ok testData :=
  Set_Fetch_roundtrip (NewMemCache [MaxItemLimit 10]) (Reachable.init _ (by simp))
    "greeting" testData defaultExp 0 5 (by decide) (fun _ => by decide) 2 (by decide)

/-- C2: on a new cache with `maxItems = N` and `maxBytes = B`, after `Set` has been
called once for each of `N + M` pairwise distinct keys, where the payloads of the
`N` latest calls together are no longer than `B` (as they are when the byte limit
is never reached, see `fits_of_never_over`), the call returns every time and exactly `N` items are stored in
the list and in the index: the entries of the `N` latest calls with their own
payloads, latest first.  `Fetch` of each of the `M` earliest keys returns
`ErrNotFound`, and `Fetch` of a kept key before its expiry returns its payload.
The additions to the `uint` counter are assumed not to overflow: `B` plus any one
payload length, or the sum of all payload lengths, is below `2 ^ 64`. -/
theorem item_limit_eviction (N M B : Nat) (calls : List SetCall)
    (hlen : calls.length = N + M) (hk : (calls.map fun c => c.key).Nodup)
    (hbytes : totalBytes (calls.drop M) ≤ B)
    (hw : (∀ c ∈ calls, B + c.value.length < uintSize) ∨ totalBytes calls < uintSize)
    (fuel : Nat) (hf : N + M + 2 ≤ fuel) :
    ∃ m', SetAll fuel (NewMemCache [MaxItemLimit N, MaxBytesLimit B]) calls = some m' ∧
      entries m' = (calls.drop M).reverse.map SetCall.item ∧
      m'.list.length = N ∧ indexSize m' = N ∧ Consistent m' ∧
      (∀ c ∈ calls.take M, ∀ now, (Fetch m' c.key now).2 = .error .ErrNotFound) ∧
      (∀ c ∈ calls.drop M, ∀ now, now ≤ c.now + c.exp →
        (Fetch m' c.key now).2 = .ok c.value) := by
  obtain ⟨m', n, hr, hkeep⟩ := SetAll_keeps N B calls hk hw fuel (by omega)
  have hn : n = N := by
    by_contra hne
    have hlt : n < N := lt_of_le_of_ne hkeep.count_le hne
    rcases hkeep.maximal (n + 1) (by omega) (by omega) with h | h
    · omega
    · have h1 : calls.reverse.take (n + 1) = (calls.reverse.take N).take (n + 1) := by
        rw [List.take_take, Nat.min_eq_left (by omega)]
      have h2 := totalBytes_take_le (calls.reverse.take N) (n + 1)
      have h3 : totalBytes (calls.reverse.take N) = totalBytes (calls.drop M) := by
        rw [List.take_reverse, totalBytes_reverse]
        congr 2
        omega
      rw [← h1] at h2
      omega
  subst hn
  have hent : entries m' = (calls.drop M).reverse.map SetCall.item := by
    rw [hkeep.entries_eq, List.take_reverse]
    congr 3
    omega
  have hcons := hkeep.inv.consistent
  have hll : m'.list.length = n := by
    have := congrArg List.length hent
    simpa [entries, hlen] using this
  refine ⟨m', hr, hent, hll, by rw [← hcons.length_eq, hll], hcons, ?_, ?_⟩
  · intro c hc now
    have hnone : m'.items.lookup c.key = none := by
      apply AList.lookup_eq_none.2
      intro hmem
      obtain ⟨i, hi, hik⟩ := (hcons.key_iff c.key).1 hmem
      rw [hent] at hi
      obtain ⟨c', hc', rfl⟩ := List.mem_map.1 hi
      have hc'd : c' ∈ calls.drop M := List.mem_reverse.1 hc'
      rw [← List.take_append_drop M calls, List.map_append, List.nodup_append] at hk
      exact hk.2.2 (List.mem_map.2 ⟨c, hc, rfl⟩) (List.mem_map.2 ⟨c', hc'd, hik⟩)
    rw [Fetch_of_none hnone]
  · intro c hc now hnow
    have hi : c.item ∈ entries m' := by
      rw [hent]
      exact List.mem_map.2 ⟨c, List.mem_reverse.2 hc, rfl⟩
    obtain ⟨e, he, hee⟩ := List.mem_map.1 hi
    have hl := hkeep.inv.list_indexed e he
    rw [hee] at hl
    have hl : m'.items.lookup c.key = some e := hl
    rw [Fetch_result_of_live hl (by rw [hee]; simp [SetCall.item]; omega), hee]
    rfl

theorem item_limit_eviction_witness :
    (∃ m', SetAll 22 (NewMemCache [MaxItemLimit 10, MaxBytesLimit DefaultBytesLimit])
        itemLimitCalls = some m' ∧
      entries m' = (itemLimitCalls.drop 10).reverse.map SetCall.item ∧
      m'.list.length = 10 ∧ indexSize m' = 10 ∧ Consistent m' ∧
      (∀ c ∈ itemLimitCalls.take 10, ∀ now, (Fetch m' c.key now).2 = .error .ErrNotFound) ∧
      (∀ c ∈ itemLimitCalls.drop 10, ∀ now, now ≤ c.now + c.exp →
        (Fetch m' c.key now).2 = .ok c.value)) ∧
    (SetAll 22 (NewMemCache [MaxItemLimit 10]) itemLimitCalls).map
        (fun m => ((entries m).map (fun i => i.key), indexSize m, (Fetch m "0" 20).2,
          (Fetch m "10" 20).2)) =
      some (["19", "18", "17", "16", "15", "14", "13", "12", "11", "10"], 10,
        .error .ErrNotFound, .ok [49, 48]) ∧
    (∃ m', SetAll 5 (NewMemCache [MaxItemLimit 1, MaxBytesLimit 5]) twoByteCalls = some m' ∧
      entries m' = (twoByteCalls.drop 2).reverse.map SetCall.item ∧
      m'.list.length = 1 ∧ indexSize m' = 1 ∧ Consistent m' ∧
      (∀ c ∈ twoByteCalls.take 2, ∀ now, (Fetch m' c.key now).2 = .error .ErrNotFound) ∧
      (∀ c ∈ twoByteCalls.drop 2, ∀ now, now ≤ c.now + c.exp →
        (Fetch m' c.key now).2 = .ok c.value)) ∧
    (SetAll 5 (NewMemCache [MaxItemLimit 1, MaxBytesLimit 5]) twoByteCalls).map
        (fun m => ((entries m).map (fun i => i.key), indexSize m, m.currentBytes)) =
      some (["c"], 1, 2) :=
  ⟨item_limit_eviction 10 10 DefaultBytesLimit itemLimitCalls (by decide) (by decide)
    (by decide) (Or.inr (by decide)) 22 (by decide), by decide,
    item_limit_eviction 1 2 5 twoByteCalls (by decide) (by decide) (by decide)
      (Or.inr (by decide)) 5 (by decide), by decide⟩

/-- C3: on a new cache with `maxBytes = B` and `maxItems = N`, after `Set` has been
called once for each key of any sequence of pairwise distinct keys of which every
suffix that fits in `B` bytes has at most `N` calls (as it has when the item limit
is never reached, see `fits_le_of_never_full`), the call has returned every time,
the stored payload bytes are at most `B` and equal `currentBytes`, and the stored
entries are those of the longest suffix of the sequence whose total payload length
is at most `B`, latest first.  The additions to the `uint` counter are assumed not
to overflow: `B` plus any one payload length, or the sum of all payload lengths,
is below `2 ^ 64`. -/
theorem byte_limit_eviction (N B : Nat) (calls : List SetCall)
    (hitems : ∀ j, totalBytes (calls.drop j) ≤ B → calls.length - j ≤ N)
    (hk : (calls.map fun c => c.key).Nodup)
    (hw : (∀ c ∈ calls, B + c.value.length < uintSize) ∨ totalBytes calls < uintSize)
    (fuel : Nat) (hf : calls.length + 2 ≤ fuel) :
    ∃ m' j, SetAll fuel (NewMemCache [MaxItemLimit N, MaxBytesLimit B]) calls = some m' ∧
      j ≤ calls.length ∧
      entries m' = (calls.drop j).reverse.map SetCall.item ∧
      totalBytes (calls.drop j) ≤ B ∧
      (∀ i, i < j → B < totalBytes (calls.drop i)) ∧
      storedBytes m' ≤ B ∧ m'.currentBytes = storedBytes m' ∧
      m'.list.length = calls.length - j ∧ indexSize m' = calls.length - j ∧
      Consistent m' := by
  obtain ⟨m', n, hr, hkeep⟩ := SetAll_keeps N B calls hk hw fuel hf
  have hnl := hkeep.le_length
  have htake : ∀ k, k ≤ calls.length →
      totalBytes (calls.reverse.take k) = totalBytes (calls.drop (calls.length - k)) := by
    intro k _
    rw [List.take_reverse, totalBytes_reverse]
  have hent : entries m' = (calls.drop (calls.length - n)).reverse.map SetCall.item := by
    rw [hkeep.entries_eq, List.take_reverse]
  have hsb : storedBytes m' = totalBytes (calls.drop (calls.length - n)) := by
    rw [storedBytes_of_entries hent, totalBytes_reverse]
  have hcons := hkeep.inv.consistent
  have hll : m'.list.length = calls.length - (calls.length - n) := by
    have := congrArg List.length hent
    simpa [entries] using this
  have hbl := hkeep.bytes_le
  rw [htake n hnl] at hbl
  refine ⟨m', calls.length - n, hr, Nat.sub_le _ _, hent, hbl, ?_, by rw [hsb]; exact hbl,
    hkeep.exact, hll, by rw [← hcons.length_eq, hll], hcons⟩
  intro i hi
  rcases hkeep.maximal (calls.length - i) (by omega) (Nat.sub_le _ _) with h | h
  · by_contra hle
    have := hitems i (by omega)
    omega
  · rw [htake _ (Nat.sub_le _ _)] at h
    have : calls.length - (calls.length - i) = i := by omega
    rw [this] at h
    exact h

theorem byte_limit_eviction_witness :
    (∃ m' j, SetAll 5 (NewMemCache [MaxItemLimit DefaultItemLimit, MaxBytesLimit 8])
        bytesLimitCalls = some m' ∧
      j ≤ bytesLimitCalls.length ∧
      entries m' = (bytesLimitCalls.drop j).reverse.map SetCall.item ∧
      totalBytes (bytesLimitCalls.drop j) ≤ 8 ∧
      (∀ i, i < j → 8 < totalBytes (bytesLimitCalls.drop i)) ∧
      storedBytes m' ≤ 8 ∧ m'.currentBytes = storedBytes m' ∧
      m'.list.length = bytesLimitCalls.length - j ∧
      indexSize m' = bytesLimitCalls.length - j ∧ Consistent m') ∧
    (SetAll 5 (NewMemCache [MaxBytesLimit 8]) bytesLimitCalls).map
        (fun m => ((entries m).map (fun i => i.key), m.list.length, indexSize m,
          m.currentBytes)) =
      some (["2", "1"], 2, 2, 6) ∧
    (∃ m' j, SetAll 7 (NewMemCache [MaxItemLimit 4, MaxBytesLimit 8])
        threeByteCalls = some m' ∧
      j ≤ threeByteCalls.length ∧
      entries m' = (threeByteCalls.drop j).reverse.map SetCall.item ∧
      totalBytes (threeByteCalls.drop j) ≤ 8 ∧
      (∀ i, i < j → 8 < totalBytes (threeByteCalls.drop i)) ∧
      storedBytes m' ≤ 8 ∧ m'.currentBytes = storedBytes m' ∧
      m'.list.length = threeByteCalls.length - j ∧
      indexSize m' = threeByteCalls.length - j ∧ Consistent m') ∧
    (SetAll 7 (NewMemCache [MaxItemLimit 4, MaxBytesLimit 8]) threeByteCalls).map
        (fun m => ((entries m).map (fun i => i.key), m.list.length, indexSize m,
          m.currentBytes)) =
      some (["e", "d"], 2, 2, 6) :=
  ⟨byte_limit_eviction DefaultItemLimit 8 bytesLimitCalls
    (fun j _ => Nat.le_trans (Nat.sub_le _ _) (by decide)) (by decide)
    (Or.inl (by decide)) 5 (by decide), by decide,
    byte_limit_eviction 4 8 threeByteCalls
      (fun j hj => by
        cases j with
        | zero => exact absurd hj (by decide)
        | succ j => simp [threeByteCalls])
      (by decide) (Or.inl (by decide)) 7 (by decide), by decide⟩

/-- C4: the code breaks the capacity guarantee on the path for a stored key.  With
`MaxBytesLimit(8)`, after `Set("a", 5 bytes)`, `Set("b", 3 bytes)` and
`Set("a", 8 bytes)`, every payload no longer than `maxBytes`, the cache holds two
items and `currentBytes` is 11 while `maxBytes` is 8: the update path returns
before the eviction loop. -/
theorem Set_existing_exceeds_maxBytes :
    (SetAll 2 (NewMemCache [MaxBytesLimit 8])
        [⟨"a", [1, 2, 3, 4, 5], defaultExp, 0⟩, ⟨"b", [1, 2, 3], defaultExp, 0⟩,
          ⟨"a", [1, 2, 3, 4, 5, 6, 7, 8], defaultExp, 0⟩]).map
      (fun m => (m.currentBytes, storedBytes m, m.maxBytes, m.list.length, indexSize m)) =
      some (11, 11, 8, 2, 2) := by
  decide

/-- C5, as stated, fails: on a new cache with `MaxBytesLimit(8)` (and the default
item limit), `Set("a", p, 1s)` with a payload of 9 bytes returns with an empty
list and an empty index: the oversized entry is not kept. -/
theorem oversized_counterexample :
    (Set 2 (NewMemCache [MaxBytesLimit 8]) "a" [1, 2, 3, 4, 5, 6, 7, 8, 9] defaultExp 0).map
      (fun m => (m.list, indexSize m, m.currentBytes)) = some ([], 0, 0) := by
  decide

/-- C5, amended: in a reachable state whose `currentBytes` is the stored payload
bytes plus some `d ≤ maxBytes` (`d = 0` when the counter is exact), `Set` of a key
not yet stored whose payload alone is longer than `maxBytes` returns and leaves the
cache empty: every entry, the oversized one included, is evicted from the list and
from the index, and `currentBytes` is `d`. -/
theorem Set_oversized_evicts_all (m : memcache) (hreach : Reachable m) (k : String)
    (p : List UInt8) (ttl t : Int) (hnew : m.items.lookup k = none)
    (hbig : m.maxBytes < p.length) (d : Nat) (hb : m.currentBytes = d + storedBytes m)
    (hd : d ≤ m.maxBytes) (hw : m.currentBytes + p.length < uintSize)
    (fuel : Nat) (hf : m.list.length + 2 ≤ fuel) :
    ∃ m', Set fuel m k p ttl t = some m' ∧ m'.list = [] ∧ m'.items = ∅ ∧
      indexSize m' = 0 ∧ m'.currentBytes = d := by
  obtain ⟨m', hr⟩ := Set_returns hreach.inv hb hd k hw ttl t fuel hf
  obtain ⟨hev, hno⟩ := Set_new_evicted hreach.inv hnew hb hw hr
  have hnil : m'.list = [] := by
    by_contra hne
    obtain ⟨r, hr2⟩ := hev.list_prefix
    cases hm : m'.list with
    | nil => exact hne hm
    | cons a l =>
      rw [hm] at hr2
      have ha : a = fresh m := List.head_eq_of_cons_eq hr2
      have hbytes := hev.bytes_eq
      rw [hm, ha] at hbytes
      have h1 : bytesOf (pushed m k p ttl t).elems (fresh m :: l) =
          p.length + bytesOf (pushed m k p ttl t).elems l := by
        simp [bytesOf, elems_pushed_fresh]
      rw [h1] at hbytes
      apply hno
      right
      rw [hev.maxBytes_eq]
      show m.maxBytes < m'.currentBytes
      omega
  have hinv := hev.inv
  unfold Inv at hinv
  rw [hnil] at hinv
  have hitems := hinv.items_eq_empty
  refine ⟨m', hr, hnil, hitems, ?_, ?_⟩
  · rw [indexSize, hitems]
    rfl
  · rw [hev.bytes_eq, hnil]
    simp [bytesOf]

theorem Set_oversized_evicts_all_witness :
    ∃ m', Set 4 bytesCache "big" [1, 2, 3, 4, 5, 6, 7, 8, 9] defaultExp 0 = some m' ∧
      m'.list = [] ∧ m'.items = ∅ ∧ indexSize m' = 0 ∧ m'.currentBytes = 0 :=
  Set_oversized_evicts_all bytesCache reachable_bytesCache "big" [1, 2, 3, 4, 5, 6, 7, 8, 9]
    defaultExp 0 (by decide) (by decide) 0 (by decide) (by decide) (by decide) 4 (by decide)

/-- C6: `Set` does not always return.  The cache with `MaxBytesLimit(8)` after
`Set("a", 1 byte)`, `Set("a", 9 bytes)` and `Delete("a")` is reachable, empty, and
its counter stands at 9; `Set("b", empty payload)` on it never leaves the eviction
loop, whatever the fuel: once the list is empty the loop body changes nothing and
`currentBytes > maxBytes` stays true. -/
theorem Set_diverges :
    Reachable leakedCache ∧ leakedCache.list = [] ∧ leakedCache.currentBytes = 9 ∧
      leakedCache.maxBytes = 8 ∧
      ∀ fuel, Set fuel leakedCache "b" [] defaultExp 0 = none := by
  refine ⟨reachable_leakedCache, by decide, by decide, by decide, fun fuel => ?_⟩
  rw [Set_of_lookup_none (by decide)]
  cases fuel with
  | zero => rfl
  | succ n =>
    unfold evictLoop
    rw [if_pos (by decide)]
    exact evictLoop_stuck (by decide) (by decide) n

/-- C7: the byte counter drifts.  In the scenario of `TestDelete`,
`Set("greeting", 17 bytes)` then `Delete("greeting")` on a new cache, the list and
the index are empty, the stored payload bytes are 0, and `currentBytes` is still
17: `Delete` does not subtract the payload length.  Nor does `Fetch` when it
removes the expired entry instead. -/
theorem Delete_keeps_currentBytes :
    (Reachable (Delete greetingCache "greeting") ∧
      (Delete greetingCache "greeting").list = [] ∧
      indexSize (Delete greetingCache "greeting") = 0 ∧
      storedBytes (Delete greetingCache "greeting") = 0 ∧
      (Delete greetingCache "greeting").currentBytes = 17) ∧
    (Reachable (Fetch greetingCache "greeting" (defaultExp + 1)).1 ∧
      (Fetch greetingCache "greeting" (defaultExp + 1)).1.list = [] ∧
      storedBytes (Fetch greetingCache "greeting" (defaultExp + 1)).1 = 0 ∧
      (Fetch greetingCache "greeting" (defaultExp + 1)).1.currentBytes = 17) :=
  ⟨⟨Reachable.delete _ reachable_greetingCache, by decide, by decide, by decide, by decide⟩,
    ⟨Reachable.fetch _ _ reachable_greetingCache, by decide, by decide, by decide⟩⟩

/-- C8: in every state reachable from `NewMemCache` by `Fetch`, `Set` and `Delete`
a key is in the index exactly when the recency list holds an entry with that key,
every index entry points to the list element that carries its key, no key occurs
twice in the list (nor does any element), and the list length is the index size. -/
theorem reachable_consistent (m : memcache) (h : Reachable m) :
    Consistent m ∧ m.list.Nodup :=
  ⟨h.inv.consistent, h.inv.nodup⟩

theorem reachable_consistent_witness :
    Consistent (Fetch greetingCache "greeting" 5).1 ∧
      (Fetch greetingCache "greeting" 5).1.list.Nodup :=
  reachable_consistent _ (Reachable.fetch "greeting" 5 reachable_greetingCache)

/-- C9: the code serves an entry at the instant of its expiry.  In the scenario of
`TestFetchExpired`, `Set("greeting", testData, 0)` on a new cache with
`MaxItemLimit(10)` followed by `Fetch("greeting")` at the same clock reading,
`Fetch` returns the payload and no error, where the claim and the test require
`ErrNotFound`: `expireAt.Before(now)` is false when `expireAt` equals `now`.  One
tick of the clock later `Fetch` does return `ErrNotFound`. -/
theorem Fetch_serves_entry_at_expiry :
    (Set 1 (NewMemCache [MaxItemLimit 10]) "greeting" testData 0 0).map
      (fun m => ((Fetch m "greeting" 0).2, (Fetch m "greeting" 1).2)) =
      some (.ok testData, .error .ErrNotFound) := by
  decide

/-- C10: in every cache state whose index holds `k`, pointing at element `e`,
`Set(k, p2, ttl)` returns (for any fuel, the loop is not entered) and leaves the
index as it is and the list a rearrangement of itself with `e` moved to the front:
the stored keys and the item counts of list and index are unchanged.  The element
`e` then holds `p2` and the expiry `now + ttl` under its old key, every other
element is untouched, and `currentBytes` changes by `len(p2) - len(p1)` in `uint`
arithmetic (modulo `2 ^ 64`), which is the exact difference whenever the new
value lies in the range of `uint`. -/
theorem Set_existing_in_place (m : memcache) (k : String) (e : Nat) (p2 : List UInt8)
    (ttl now : Int) (fuel : Nat) (h : m.items.lookup k = some e) :
    ∃ m', Set fuel m k p2 ttl now = some m' ∧
      m'.items = m.items ∧ indexSize m' = indexSize m ∧
      m'.list = MoveToFront m.list e ∧ m'.list.Perm m.list ∧
      m'.list.length = m.list.length ∧
      ((entries m').map fun i => i.key).Perm ((entries m).map fun i => i.key) ∧
      m'.elems e = ⟨(m.elems e).key, p2, now + ttl⟩ ∧
      (∀ q, q ≠ e → m'.elems q = m.elems q) ∧
      m'.maxItems = m.maxItems ∧ m'.maxBytes = m.maxBytes ∧
      ((m'.currentBytes : Int) =
        ((m.currentBytes : Int) - (m.elems e).payload.length + p2.length) % (uintSize : Nat)) ∧
      (0 ≤ (m.currentBytes : Int) - (m.elems e).payload.length + p2.length →
        (m.currentBytes : Int) - (m.elems e).payload.length + p2.length < (uintSize : Nat) →
        (m'.currentBytes : Int) =
          (m.currentBytes : Int) - (m.elems e).payload.length + p2.length) := by
  refine ⟨_, Set_of_lookup_some h fuel p2 ttl now, rfl, rfl, rfl, MoveToFront_perm _ _,
    length_MoveToFront _ _, ?_, by simp [store], fun q hq => by simp [store, hq], rfl, rfl,
    uadd_usub_cast _ _ _, fun h0 h1 => by
      show ((uadd (usub m.currentBytes (m.elems e).payload.length) p2.length : Nat) : Int) = _
      rw [uadd_usub_cast, Int.emod_eq_of_lt h0 h1]⟩
  have hkeys : ∀ l : List Nat,
      (l.map (store m.elems e ⟨(m.elems e).key, p2, now + ttl⟩)).map (fun i => i.key) =
        (l.map m.elems).map fun i => i.key := by
    intro l
    rw [List.map_map, List.map_map]
    apply List.map_congr_left
    intro q _
    by_cases hq : q = e
    · simp [store, hq]
    · simp [store, hq]
  show (((MoveToFront m.list e).map _).map _).Perm _
  rw [hkeys]
  exact ((MoveToFront_perm m.list e).map _).map _

theorem Set_existing_in_place_witness :
    ∃ m', Set 0 greetingCache "greeting" testData2 defaultExp 7 = some m' ∧
      m'.items = greetingCache.items ∧ indexSize m' = indexSize greetingCache ∧
      m'.list = MoveToFront greetingCache.list 1 ∧ m'.list.Perm greetingCache.list ∧
      m'.list.length = greetingCache.list.length ∧
      ((entries m').map fun i => i.key).Perm ((entries greetingCache).map fun i => i.key) ∧
      m'.elems 1 = ⟨(greetingCache.elems 1).key, testData2, 7 + defaultExp⟩ ∧
      (∀ q, q ≠ 1 → m'.elems q = greetingCache.elems q) ∧
      m'.maxItems = greetingCache.maxItems ∧ m'.maxBytes = greetingCache.maxBytes ∧
      ((m'.currentBytes : Int) =
        ((greetingCache.currentBytes : Int) - (greetingCache.elems 1).payload.length +
          testData2.length) % (uintSize : Nat)) ∧
      (0 ≤ (greetingCache.currentBytes : Int) - (greetingCache.elems 1).payload.length +
          testData2.length →
        (greetingCache.currentBytes : Int) - (greetingCache.elems 1).payload.length +
          testData2.length < (uintSize : Nat) →
        (m'.currentBytes : Int) = (greetingCache.currentBytes : Int) -
          (greetingCache.elems 1).payload.length + testData2.length) :=
  Set_existing_in_place greetingCache "greeting" 1 testData2 defaultExp 7 0 (by decide)

/-- C11: in a consistent state (as every reachable state is) whose index holds `k`,
pointing at element `e`, `Delete(k)` leaves the key in neither the index nor the
list, makes both one item shorter, keeps every other entry, with its contents, its
index entry and its place in the recency order, and a following `Fetch(k)` at any
time returns `ErrNotFound` and changes nothing. -/
theorem Delete_removes_key (m : memcache) (hinv : Inv m) (k : String) (e : Nat)
    (h : m.items.lookup k = some e) :
    Removed m k e (Delete m k) ∧
      ∀ now, Fetch (Delete m k) k now = (Delete m k, .error .ErrNotFound) :=
  ⟨Delete_removed hinv h, fun now => Fetch_of_none (Delete_removed hinv h).not_in_index now⟩

theorem Delete_removes_key_witness :
    Removed greetingCache "greeting" 1 (Delete greetingCache "greeting") ∧
      ∀ now, Fetch (Delete greetingCache "greeting") "greeting" now =
        (Delete greetingCache "greeting", .error .ErrNotFound) :=
  Delete_removes_key greetingCache reachable_greetingCache.inv "greeting" 1 (by decide)

/-- C12: `Delete` releases no bytes.  It never changes `currentBytes`, and in the
scenario of `TestDelete`, `Set("greeting", 17 bytes)` then `Delete("greeting")` on a
new cache, the key is stored with a payload of 17 bytes before the `Delete` and
`currentBytes` is 17 before and after it, where the test expects 0. -/
theorem Delete_releases_no_bytes :
    (∀ m key, (Delete m key).currentBytes = m.currentBytes) ∧
      (Fetch greetingCache "greeting" 0).2 = .ok testData ∧ testData.length = 17 ∧
      greetingCache.currentBytes = 17 ∧
      (Delete greetingCache "greeting").currentBytes = 17 ∧
      indexSize (Delete greetingCache "greeting") = 0 :=
  ⟨currentBytes_Delete, by decide, by decide, by decide, by decide, by decide⟩

/-- C13: `Delete` of a key that the index does not hold leaves the whole state as
it is (the error it returns is always `nil`), and in every state a second
`Delete` of the same key changes nothing any more. -/
theorem Delete_idempotent (m : memcache) (k : String) :
    (m.items.lookup k = none → Delete m k = m) ∧
      (Delete m k).items.lookup k = none ∧
      Delete (Delete m k) k = Delete m k := by
  have h2 : (Delete m k).items.lookup k = none := by
    cases h : m.items.lookup k with
    | none => rw [Delete_of_none h]; exact h
    | some e => rw [Delete_of_some h]; exact AList.lookup_erase _ _
  exact ⟨Delete_of_none, h2, Delete_of_none h2⟩

/-- C14: in a consistent state (as every reachable state is) whose index holds `k`,
pointing at element `e`, a `Fetch(k)` that returns the payload and a `Set(k, p, ttl)`
each leave the list as `e` followed by the other elements in their previous order.
Hence, when the list is `init ++ [b, e]` (`e` the tail, `b` second from the tail)
and as long as `maxItems`, after either call the list is `e :: init ++ [b]`, and the
next `Set` of a key `k2` that is not stored, whose payload keeps `currentBytes`
within `maxBytes` (the counter not being below the stored bytes), returns with the
list `new :: e :: init`: the entry of `b` is evicted and the entry of `k` is kept. -/
theorem recency_refresh (m : memcache) (hinv : Inv m) (k : String) (e : Nat)
    (h : m.items.lookup k = some e) :
    (∀ now, ¬ (m.elems e).expireAt < now →
      (Fetch m k now).2 = .ok (m.elems e).payload ∧
      (Fetch m k now).1.list = e :: m.list.erase e) ∧
    (∀ fuel p ttl now, ∃ m', Set fuel m k p ttl now = some m' ∧
      m'.list = e :: m.list.erase e) ∧
    m.list.erase e = m.list.filter (fun q => decide (q ≠ e)) ∧
    (∀ init b, m.list = init ++ [b, e] → m.list.length = m.maxItems →
      e :: m.list.erase e = e :: init ++ [b] ∧
      ∀ m1, ((∃ now, ¬ (m.elems e).expireAt < now ∧ m1 = (Fetch m k now).1) ∨
          ∃ fuel p ttl now, Set fuel m k p ttl now = some m1) →
        ∀ k2 v ttl2 now2 fuel, m1.items.lookup k2 = none →
          m1.currentBytes + v.length ≤ m1.maxBytes → m1.maxBytes < uintSize →
          storedBytes m1 ≤ m1.currentBytes → 2 ≤ fuel →
          ∃ m2, Set fuel m1 k2 v ttl2 now2 = some m2 ∧
            m2.list = fresh m1 :: e :: init ∧
            m2.items.lookup k = some e ∧
            m2.items.lookup k2 = some (fresh m1) ∧
            m2.items.lookup (m.elems b).key = none) := by
  obtain ⟨hmem, hkey⟩ := hinv.index_sound k e h
  have hmove : MoveToFront m.list e = e :: m.list.erase e := MoveToFront_of_mem hmem
  have hfilter : m.list.erase e = m.list.filter (fun q => decide (q ≠ e)) := by
    rw [hinv.nodup.erase_eq_filter]
    apply List.filter_congr
    intro q _
    by_cases hq : q = e <;> simp [hq]
  refine ⟨fun now hx => ?_, fun fuel p ttl now => ?_, hfilter, fun init b hl hfull => ?_⟩
  · rw [Fetch_of_live h hx]
    exact ⟨rfl, hmove⟩
  · exact ⟨_, Set_of_lookup_some h fuel p ttl now, hmove⟩
  · have hnd : (init ++ [b, e]).Nodup := hl ▸ hinv.nodup
    have hei : e ∉ init := fun hm =>
      (List.nodup_append.1 hnd).2.2 hm (by simp)
    have hbe : b ≠ e := by
      have := (List.nodup_append.1 hnd).2.1
      simpa using this
    have hbmem : b ∈ m.list := by rw [hl]; simp
    have herase : m.list.erase e = init ++ [b] := by
      rw [hl, List.erase_append_right _ hei]
      simp [hbe]
    refine ⟨by rw [herase]; rfl, ?_⟩
    intro m1 htouch k2 v ttl2 now2 fuel hk2 hfit hmax hcount hf
    have hm1 : Inv m1 ∧ m1.list = (e :: init) ++ [b] ∧ m1.items = m.items ∧
        m1.maxItems = m.maxItems ∧ m1.elems b = m.elems b := by
      rcases htouch with ⟨now, hx, rfl⟩ | ⟨fuel', p, ttl, now, hs⟩
      · have hi := Inv_Fetch hinv k now
        rw [Fetch_of_live h hx] at hi ⊢
        exact ⟨hi, by show MoveToFront m.list e = _; rw [hmove, herase]; rfl, rfl, rfl, rfl⟩
      · have hi := Inv_Set hinv hs
        rw [Set_of_lookup_some h] at hs
        cases hs
        refine ⟨hi, by show MoveToFront m.list e = _; rw [hmove, herase]; rfl, rfl, rfl, ?_⟩
        show store m.elems e _ b = m.elems b
        simp [store, hbe]
    obtain ⟨hi1, hl1, hit1, hmx1, hel1⟩ := hm1
    have hb1 : b ∈ m1.list := by rw [hl1]; simp
    have hfull1 : m1.list.length = m1.maxItems := by
      rw [hmx1, ← hfull, hl1, hl]
      simp
    have hpb : (m1.elems b).payload.length ≤ m1.currentBytes + v.length := by
      have := payload_le_storedBytes hb1
      omega
    obtain ⟨m2, hs2, hl2, hit2, _⟩ :=
      Set_new_evicts_tail hi1 hl1 hfull1 hk2 hfit hmax hpb ttl2 now2 hf
    have hk1 : m1.items.lookup k = some e := by rw [hit1]; exact h
    have hkk2 : k ≠ k2 := by
      intro hk
      rw [hk, hk2] at hk1
      cases hk1
    have hkb : k ≠ (m1.elems b).key := by
      intro hk
      have := hi1.list_indexed b hb1
      rw [← hk, hk1] at this
      exact hbe (Option.some.inj this).symm
    refine ⟨m2, hs2, by rw [hl2], ?_, ?_, ?_⟩
    · rw [hit2, AList.lookup_erase_ne hkb, AList.lookup_insert_ne hkk2]
      exact hk1
    · have hk2b : k2 ≠ (m1.elems b).key := by
        intro hk
        have := hi1.list_indexed b hb1
        rw [← hk, hk2] at this
        cases this
      rw [hit2, AList.lookup_erase_ne hk2b]
      exact AList.lookup_insert _
    · rw [hit2, ← hel1]
      exact AList.lookup_erase _ _

theorem recency_refresh_witness :
    ∃ m2, Set 2 (Fetch twoCache "a" 2).1 "c" [3] defaultExp 3 = some m2 ∧
      m2.list = [3, 1] ∧ m2.items.lookup "a" = some 1 ∧ m2.items.lookup "c" = some 3 ∧
      m2.items.lookup "b" = none :=
  ((recency_refresh twoCache reachable_twoCache.inv "a" 1 (by decide)).2.2.2 [] 2
    (by decide) (by decide)).2 _ (Or.inl ⟨2, by decide, rfl⟩) "c" [3] defaultExp 3 2
    (by decide) (by decide) (by decide) (by decide) (by decide)

/-- C15: `Fetch(k)` at clock reading `now` returns `ErrNotFound` exactly when the
index does not hold `k` or the entry it points to has `expireAt < now`; otherwise,
also when `expireAt = now`, it returns the payload of that entry and no error.
`ErrNotFound` is the only error it returns. -/
theorem Fetch_result (m : memcache) (k : String) (now : Int) :
    ((Fetch m k now).2 = .error .ErrNotFound ↔
      (m.items.lookup k = none ∨
        ∃ e, m.items.lookup k = some e ∧ (m.elems e).expireAt < now)) ∧
    (∀ e, m.items.lookup k = some e → now ≤ (m.elems e).expireAt →
      (Fetch m k now).2 = .ok (m.elems e).payload) ∧
    (∀ err, (Fetch m k now).2 = .error err → err = .ErrNotFound) := by
  refine ⟨?_, ?_, ?_⟩
  · cases h : m.items.lookup k with
    | none => simp [Fetch_of_none h]
    | some e =>
      by_cases hx : (m.elems e).expireAt < now
      · simp [Fetch_of_expired h hx, hx]
      · simp [Fetch_of_live h hx, hx]
  · intro e h hx
    rw [Fetch_of_live h (by omega)]
  · intro err _
    cases err
    rfl

/-- C16: in a consistent state (as every reachable state is) whose index holds `k`,
pointing at an element `e` with `expireAt < now`, `Fetch(k)` at time `now` returns
`ErrNotFound` and removes the entry: the key is in neither the index nor the list,
both are one item shorter, and every other entry keeps its contents, its index
entry and its place in the recency order. -/
theorem Fetch_expired_removes (m : memcache) (hinv : Inv m) (k : String) (e : Nat)
    (now : Int) (h : m.items.lookup k = some e) (hx : (m.elems e).expireAt < now) :
    Removed m k e (Fetch m k now).1 ∧ (Fetch m k now).2 = .error .ErrNotFound := by
  rw [Fetch_expired_eq_Delete hinv h hx]
  exact ⟨Delete_removed hinv h, Fetch_result_of_expired h hx⟩

theorem Fetch_expired_removes_witness :
    Removed greetingCache "greeting" 1 (Fetch greetingCache "greeting" (defaultExp + 1)).1 ∧
      (Fetch greetingCache "greeting" (defaultExp + 1)).2 = .error .ErrNotFound :=
  Fetch_expired_removes greetingCache reachable_greetingCache.inv "greeting" 1
    (defaultExp + 1) (by decide) (by decide)

/-- C17: `NewMemCache()` is the empty cache with `currentBytes = 0`,
`maxItems = 262144` and `maxBytes = 67108864`; `MaxItemLimit(n)` alone sets only
`maxItems`, `MaxBytesLimit(b)` alone sets only `maxBytes`; and after any options,
the last `MaxItemLimit` and the last `MaxBytesLimit` given are the ones that
count, whatever `MaxBytesLimit` or `MaxItemLimit` options follow them. -/
theorem NewMemCache_construction :
    ((NewMemCache []).list = [] ∧ (NewMemCache []).items = ∅ ∧
      indexSize (NewMemCache []) = 0 ∧ (NewMemCache []).currentBytes = 0 ∧
      (NewMemCache []).maxItems = 262144 ∧ (NewMemCache []).maxBytes = 67108864) ∧
    (∀ n, (NewMemCache [MaxItemLimit n]).maxItems = n ∧
      (NewMemCache [MaxItemLimit n]).maxBytes = 67108864 ∧
      (NewMemCache [MaxItemLimit n]).list = [] ∧ (NewMemCache [MaxItemLimit n]).items = ∅ ∧
      (NewMemCache [MaxItemLimit n]).currentBytes = 0) ∧
    (∀ b, (NewMemCache [MaxBytesLimit b]).maxBytes = b ∧
      (NewMemCache [MaxBytesLimit b]).maxItems = 262144 ∧
      (NewMemCache [MaxBytesLimit b]).list = [] ∧ (NewMemCache [MaxBytesLimit b]).items = ∅ ∧
      (NewMemCache [MaxBytesLimit b]).currentBytes = 0) ∧
    (∀ (opts : List cacheOption) (n : Nat) (bs : List Nat),
      (NewMemCache (opts ++ MaxItemLimit n :: bs.map MaxBytesLimit)).maxItems = n) ∧
    (∀ (opts : List cacheOption) (b : Nat) (ns : List Nat),
      (NewMemCache (opts ++ MaxBytesLimit b :: ns.map MaxItemLimit)).maxBytes = b) := by
  refine ⟨⟨rfl, rfl, rfl, rfl, rfl, rfl⟩, fun n => ⟨rfl, rfl, rfl, rfl, rfl⟩,
    fun b => ⟨rfl, rfl, rfl, rfl, rfl⟩, ?_, ?_⟩
  · intro opts n bs
    unfold NewMemCache
    rw [List.foldl_append, List.foldl_cons]
    rw [maxItems_foldl_MaxBytesLimit]
    rfl
  · intro opts b ns
    unfold NewMemCache
    rw [List.foldl_append, List.foldl_cons, maxBytes_foldl_MaxItemLimit]
    rfl

/-- C19: in every state reachable from `NewMemCache` by `Fetch`, `Set` and `Delete`
calls of which no addition to `currentBytes` has wrapped past `2 ^ 64`, the counter
is at least the sum of the stored payload lengths.  So neither subtraction in `Set`
wraps: on the path for a stored key the old payload is no longer than the counter,
and on the path for a new key (its addition not wrapping either) the payload of
the tail is no longer than the counter at every round of the eviction loop. -/
theorem counter_never_undercounts (m : memcache) (h : ReachableFits m) :
    storedBytes m ≤ m.currentBytes ∧
    (∀ k e, m.items.lookup k = some e →
      (m.elems e).payload.length ≤ m.currentBytes ∧
      usub m.currentBytes (m.elems e).payload.length =
        m.currentBytes - (m.elems e).payload.length) ∧
    (∀ k v exp now, m.items.lookup k = none → m.currentBytes + v.length < uintSize →
      ∀ i e, Back (evictStep^[i] (pushed m k v exp now)).list = some e →
        ((evictStep^[i] (pushed m k v exp now)).elems e).payload.length ≤
          (evictStep^[i] (pushed m k v exp now)).currentBytes ∧
        usub (evictStep^[i] (pushed m k v exp now)).currentBytes
            ((evictStep^[i] (pushed m k v exp now)).elems e).payload.length =
          (evictStep^[i] (pushed m k v exp now)).currentBytes -
            ((evictStep^[i] (pushed m k v exp now)).elems e).payload.length) := by
  have hc := h.counted
  refine ⟨hc.stored_le, ?_, ?_⟩
  · intro k e hl
    have := hc.payload_le (hc.inv.index_sound k e hl).1
    exact ⟨this, usub_eq this hc.bytes_lt⟩
  · intro k v exp now hl hw i e hb
    have hci := Counted_iterate (Counted_pushed hc hl hw exp now) i
    obtain ⟨l, hl'⟩ := Back_eq_some hb
    have := hci.payload_le (e := e) (by rw [hl']; simp)
    exact ⟨this, usub_eq this hci.bytes_lt⟩

theorem counter_never_undercounts_witness :
    storedBytes greetingCache ≤ greetingCache.currentBytes ∧
    (∀ k e, greetingCache.items.lookup k = some e →
      (greetingCache.elems e).payload.length ≤ greetingCache.currentBytes ∧
      usub greetingCache.currentBytes (greetingCache.elems e).payload.length =
        greetingCache.currentBytes - (greetingCache.elems e).payload.length) ∧
    (∀ k v exp now, greetingCache.items.lookup k = none →
      greetingCache.currentBytes + v.length < uintSize →
      ∀ i e, Back (evictStep^[i] (pushed greetingCache k v exp now)).list = some e →
        ((evictStep^[i] (pushed greetingCache k v exp now)).elems e).payload.length ≤
          (evictStep^[i] (pushed greetingCache k v exp now)).currentBytes ∧
        usub (evictStep^[i] (pushed greetingCache k v exp now)).currentBytes
            ((evictStep^[i] (pushed greetingCache k v exp now)).elems e).payload.length =
          (evictStep^[i] (pushed greetingCache k v exp now)).currentBytes -
            ((evictStep^[i] (pushed greetingCache k v exp now)).elems e).payload.length) :=
  counter_never_undercounts greetingCache
    (ReachableFits.set 1 "greeting" testData defaultExp 0 (ReachableFits.init _ (by simp))
      (by decide) (some_getD_of_isSome (by decide) _))

/-- C20: `Fetch` never changes `maxItems`, `maxBytes`, `currentBytes` or the
contents of any element; when the index does not hold `k` the state is unchanged;
and when `Fetch` returns a payload the index is unchanged and the list is a
rearrangement of itself (the element moved to the front), so the stored entries,
with their keys, payloads and expiry times, are the same up to order. -/
theorem Fetch_frame (m : memcache) (k : String) (now : Int) :
    (Fetch m k now).1.maxItems = m.maxItems ∧
    (Fetch m k now).1.maxBytes = m.maxBytes ∧
    (Fetch m k now).1.currentBytes = m.currentBytes ∧
    (Fetch m k now).1.elems = m.elems ∧
    (m.items.lookup k = none → (Fetch m k now).1 = m) ∧
    (∀ p, (Fetch m k now).2 = .ok p →
      (Fetch m k now).1.items = m.items ∧
      (Fetch m k now).1.list.Perm m.list ∧
      (entries (Fetch m k now).1).Perm (entries m) ∧
      ∃ e, m.items.lookup k = some e ∧ (Fetch m k now).1.list = MoveToFront m.list e) := by
  cases h : m.items.lookup k with
  | none =>
    rw [Fetch_of_none h]
    exact ⟨rfl, rfl, rfl, rfl, fun _ => rfl, fun p hp => (nomatch hp)⟩
  | some e =>
    by_cases hx : (m.elems e).expireAt < now
    · rw [Fetch_of_expired h hx]
      exact ⟨rfl, rfl, rfl, rfl, fun hn => (nomatch hn), fun p hp => (nomatch hp)⟩
    · rw [Fetch_of_live h hx]
      exact ⟨rfl, rfl, rfl, rfl, fun hn => (nomatch hn), fun p _ =>
        ⟨rfl, MoveToFront_perm _ _, (MoveToFront_perm m.list e).map m.elems, e, rfl, rfl⟩⟩

end Cache
